import Mathlib

/-!
# Verification of the 2D systolic-array GEMM pipeline

A shallow embedding of `samples/fpga/gemm_fpga_systolic_2D.py`: the SDFG built by
that script is a deterministic dataflow (Kahn) network of four components
(distributor `read_A`, distributor `read_B`, the unrolled `P_R × P_C` grid of
processing elements, and the collector `write_C`) connected by FIFO streams
(`A_pipe`, `B_pipe`, `C_pipe`).  Each stream's complete history is modelled as a
`List`; each component's output history is a function of its input histories,
with pops modelled by indexing (the `i`-th pop of a FIFO returns the `i`-th
pushed value).  Scalars are a type `α` with `Add`/`Mul`/`Zero` (instantiated at
`ℚ` or `ℤ` for concrete runs); the W-wide vector values travelling on `B_pipe`
and `C_pipe` are length-`W` lists.
-/

namespace SystolicGemm

/-! ## Configuration

The seven integer parameters of the sample (`argparse` arguments `N M K P_R P_C W T`),
with the derived loop bounds used by the SDFG maps and the divisibility invariants
stated in the design (§3). -/

structure GemmConfig where
  N : ℕ
  K : ℕ
  M : ℕ
  P_R : ℕ
  P_C : ℕ
  W : ℕ
  T : ℕ
deriving DecidableEq

namespace GemmConfig

/-- Number of row blocks: loop bound `0:N/P_R`. -/
def nB (c : GemmConfig) : ℕ := c.N / c.P_R

/-- Number of column tiles: loop bound `0:M/T`. -/
def nT (c : GemmConfig) : ℕ := c.M / c.T

/-- Sub-tile offsets per PE: loop bound `0:T/(vec_width*P_C)`. -/
def MB (c : GemmConfig) : ℕ := c.T / (c.W * c.P_C)

/-- Vector columns per tile: the `T/vec_width` factor appearing in the memlets. -/
def TW (c : GemmConfig) : ℕ := c.T / c.W

/-- The divisibility invariants of §3 plus positivity of all parameters. -/
def valid (c : GemmConfig) : Prop :=
  0 < c.N ∧ 0 < c.K ∧ 0 < c.M ∧ 0 < c.P_R ∧ 0 < c.P_C ∧ 0 < c.W ∧ 0 < c.T ∧
    c.P_R ∣ c.N ∧ c.T ∣ c.M ∧ (c.W * c.P_C) ∣ c.T

instance (c : GemmConfig) : Decidable c.valid := by
  unfold valid
  infer_instance

end GemmConfig

/-! ## Vector values

`B_pipe` and `C_pipe` carry `vec_width`-wide vectors (`dace.vector(dace.float32, vec_width)`);
a vector value is a length-`W` list.  `B` and `C` are stored on the device as
`K × M/W` resp. `N × M/W` arrays of such vectors, packed along rows
(`B[k, j]` holds scalars `B[k, j*W .. j*W+W-1]`). -/

variable {α : Type}

/-- Elementwise vector addition (`+` on the vector data type). -/
def vadd [Add α] (x y : List α) : List α := List.zipWith (· + ·) x y

/-- Scalar times vector (`a_in * b_in` with scalar `a_in`, vector `b_in`). -/
def vscale [Mul α] (a : α) (v : List α) : List α := v.map fun x => a * x

/-- The zero vector (assignment `c_prev = 0` to a vector-typed connector). -/
def vzero [Zero α] (Wd : ℕ) : List α := List.replicate Wd (0 : α)

/-- Packing a scalar row into `W`-wide vectors: vector column `j` holds
scalars `j*W .. j*W+W-1`. -/
def vecOf (Wd : ℕ) (f : ℕ → α) (j : ℕ) : List α :=
  (List.range Wd).map fun l => f (j * Wd + l)

/-- `B_device[k, j]`: the vectorized copy of B made by `copy_to_device`. -/
def B_device (c : GemmConfig) (B : ℕ → ℕ → α) (k j : ℕ) : List α := vecOf c.W (B k) j

/-- `C_device[i, j]` before the compute state: the vectorized copy of C. -/
def C_device0 (c : GemmConfig) (C0 : ℕ → ℕ → α) (i j : ℕ) : List α := vecOf c.W (C0 i) j

/-- One push onto a 1-D-indexed stream array: which slot, and the value pushed. -/
structure PushEvent (β : Type) where
  slot : ℕ
  value : β
deriving DecidableEq

/-! ## Operand Distributor A (`make_read_A`)

Map `{n0: 0:N/P_R, tm: 0:M/T, k: 0:K, n1: 0:P_R}`; per iteration the tasklet
reads `A_device[n0 * P_R + n1, k]` and pushes it to `A_pipe[P_R - n1 - 1, 0]`. -/

def read_A (c : GemmConfig) (A : ℕ → ℕ → α) : List (PushEvent α) :=
  (List.range c.nB).flatMap fun n0 =>
  (List.range c.nT).flatMap fun _tm =>
  (List.range c.K).flatMap fun k =>
  (List.range c.P_R).map fun n1 =>
    ⟨c.P_R - n1 - 1, A (n0 * c.P_R + n1) k⟩

/-- Position of iteration `(n0, tm, k)` in the lexicographic schedule of the
`n0/tm/k` loop nest shared by `buffer_a` and the A relay. -/
def A_iter_index (c : GemmConfig) (n0 tm k : ℕ) : ℕ := (n0 * c.nT + tm) * c.K + k

/-- History of `A_pipe[r, pc]`.  Column 0 is fed by the distributor (the
sub-sequence of `read_A` pushes whose slot is `r`); column `pc+1` is fed by PE
`(r, pc)`, whose `buffer_a` tasklet forwards its popped value
(`if p_c < P_C - 1: a_out = a_in`) once per `(n0, tm, k)` iteration. -/
def A_pipe_hist [Zero α] (c : GemmConfig) (A : ℕ → ℕ → α) (r : ℕ) : ℕ → List α
  | 0 => ((read_A c A).filter fun e => e.slot == r).map fun e => e.value
  | pc + 1 =>
    if pc < c.P_C - 1 then
      (List.range c.nB).flatMap fun n0 =>
      (List.range c.nT).flatMap fun tm =>
      (List.range c.K).map fun k =>
        (A_pipe_hist c A r pc).getD (A_iter_index c n0 tm k) 0
    else []

/-- State of the private register `A_reg` of PE `(r, pc)` after `i` executions of
`buffer_a` (`a_reg = a_in`); state 0 is the uninitialized transient contents. -/
def A_reg_state [Zero α] (c : GemmConfig) (A : ℕ → ℕ → α) (r pc : ℕ) (regInit : α) :
    ℕ → α
  | 0 => regInit
  | i + 1 => (A_pipe_hist c A r pc).getD i 0

/-- Value read from `A_reg` by `multiply_add` during iteration `(n0, tm, k)`:
`buffer_a` writes the register earlier in the same iteration, so the read sees
the value written at that iteration. -/
def A_reg_val [Zero α] (c : GemmConfig) (A : ℕ → ℕ → α) (regInit : α)
    (r pc n0 tm k : ℕ) : α :=
  A_reg_state c A r pc regInit (A_iter_index c n0 tm k + 1)

/-! ## Operand Distributor B (`make_read_B`)

Map `{n: 0:N/P_R, tm: 0:M/T, k: 0:K, m: 0:T/(W*P_C), pe_j: 0:P_C}`; per iteration
reads the vector `B_device[k, tm*(T/W) + m*P_C + pe_j]` and pushes it to
`B_pipe[0, pe_j]`. -/

def read_B (c : GemmConfig) (B : ℕ → ℕ → α) : List (PushEvent (List α)) :=
  (List.range c.nB).flatMap fun _n =>
  (List.range c.nT).flatMap fun tm =>
  (List.range c.K).flatMap fun k =>
  (List.range c.MB).flatMap fun m =>
  (List.range c.P_C).map fun pe_j =>
    ⟨pe_j, B_device c B k (tm * c.TW + m * c.P_C + pe_j)⟩

/-- Position of iteration `(n0, tm, k, m)` in the lexicographic schedule of the
`n0/tm/k/m` loop nest of `multiply_add`. -/
def B_iter_index (c : GemmConfig) (n0 tm k m : ℕ) : ℕ :=
  ((n0 * c.nT + tm) * c.K + k) * c.MB + m

/-- History of `B_pipe[r, pc]`.  Row 0 is fed by the distributor (pushes with
slot `pe_j = pc`); row `r+1` is fed by PE `(r, pc)`, whose `multiply_add`
tasklet forwards its popped B value unmodified (`if p_r < P_R - 1: b_out = b_in`)
once per `(n0, tm, k, m)` iteration. -/
def B_pipe_hist (c : GemmConfig) (B : ℕ → ℕ → α) (pc : ℕ) : ℕ → List (List α)
  | 0 => ((read_B c B).filter fun e => e.slot == pc).map fun e => e.value
  | r + 1 =>
    if r < c.P_R - 1 then
      (List.range c.nB).flatMap fun n0 =>
      (List.range c.nT).flatMap fun tm =>
      (List.range c.K).flatMap fun k =>
      (List.range c.MB).map fun m =>
        (B_pipe_hist c B pc r).getD (B_iter_index c n0 tm k m) []
    else []

/-- Vector popped from `B_pipe[r, pc]` by PE `(r, pc)` at iteration `(n0, tm, k, m)`. -/
def B_val (c : GemmConfig) (B : ℕ → ℕ → α) (r pc n0 tm k m : ℕ) : List α :=
  (B_pipe_hist c B pc r).getD (B_iter_index c n0 tm k m) []

/-! ## PE compute (`multiply_add` tasklet)

```
c_prev = c_in
if k == 0:
    c_prev = 0
c_out = c_prev + a_in * b_in
if p_r < P_R - 1:
    b_out = b_in
``` -/

/-- The value written to `C_buffer[m]` by one execution of `multiply_add`. -/
def multiply_add [Add α] [Mul α] [Zero α] (Wd k : ℕ) (c_in : List α) (a_in : α)
    (b_in : List α) : List α :=
  vadd (if k = 0 then vzero Wd else c_in) (vscale a_in b_in)

/-- The conditional B forward of `multiply_add`: `some` value pushed to
`B_pipe[p_r + 1, p_c]`, or `none` when the dynamic memlet does not fire. -/
def b_forward (PR p_r : ℕ) (b_in : List α) : Option (List α) :=
  if p_r < PR - 1 then some b_in else none

/-- Overwrite slot `m` of the `C_buffer` array state. -/
def bufUpdate (st : ℕ → List α) (m : ℕ) (v : List α) : ℕ → List α :=
  fun m' => if m' = m then v else st m'

/-- The inner `m`-loop of the compute phase at reduction step `k`: every slot
`m < MB` is updated by `multiply_add`. -/
def mLoop [Add α] [Mul α] [Zero α] (c : GemmConfig) (k : ℕ) (a : α)
    (bk : ℕ → List α) (st : ℕ → List α) : ℕ → List α :=
  (List.range c.MB).foldl
    (fun st' m => bufUpdate st' m (multiply_add c.W k (st' m) a (bk m))) st

/-- The `k`-loop of the compute phase for one row-block/column-tile pair:
`ar k` is the register value at step `k`, `bv k m` the popped B vector. -/
def kLoop [Add α] [Mul α] [Zero α] (c : GemmConfig) (ar : ℕ → α)
    (bv : ℕ → ℕ → List α) (st : ℕ → List α) : ℕ → List α :=
  (List.range c.K).foldl (fun st k => mLoop c k (ar k) (bv k) st) st

/-- `C_buffer` contents of PE `(r, pc)` before pair number `i` (pairs `(n0, tm)`
in lexicographic order, `i = n0 * nT + tm`); the transient persists across
pairs, starting from arbitrary contents `bInit`. -/
def bufStateBefore [Add α] [Mul α] [Zero α] (c : GemmConfig) (A B : ℕ → ℕ → α)
    (r pc : ℕ) (bInit : ℕ → List α) (rInit : α) : ℕ → ℕ → List α
  | 0 => bInit
  | i + 1 =>
    kLoop c (fun k => A_reg_val c A rInit r pc (i / c.nT) (i % c.nT) k)
      (fun k m => B_val c B r pc (i / c.nT) (i % c.nT) k m)
      (bufStateBefore c A B r pc bInit rInit i)

/-- `C_buffer[m]` of PE `(p, pc)` as drained during pair `(n0, tm)` (i.e. after
that pair's `k`-loop completed). -/
def bufDrain [Add α] [Mul α] [Zero α] (c : GemmConfig) (A B : ℕ → ℕ → α)
    (bufInit : ℕ → ℕ → ℕ → List α) (regInit : ℕ → ℕ → α) (p pc n0 tm m : ℕ) :
    List α :=
  bufStateBefore c A B p pc (bufInit p pc) (regInit p pc) (n0 * c.nT + tm + 1) m

/-! ## Drain relay (`write_c` tasklet)

```
if n1 <= p_r:
    c_out = forward_in if p_r > 0 and n1 > 0 else buffer_in
```
run under maps `{n0, tm}` then `{n1: 0:P_R, m: 0:T/(W*P_C)}`; `forward_in` is a
dynamic pop of `C_pipe[p_r - 1, p_c]`, `c_out` a dynamic push to
`C_pipe[p_r, p_c]`.  When `p > 0`, each pair contributes `p * MB` pops, so the
pop performed at `(n0, tm, n1, m)` (with `1 ≤ n1 ≤ p`) returns element
`(n0*nT + tm) * (p*MB) + (n1-1)*MB + m` of the upstream history. -/

def drainBody (c : GemmConfig) (p : ℕ) (prev : List (List α))
    (bufv : ℕ → ℕ → ℕ → List α) : List (List α) :=
  (List.range c.nB).flatMap fun n0 =>
  (List.range c.nT).flatMap fun tm =>
  (List.range c.P_R).flatMap fun n1 =>
  (List.range c.MB).flatMap fun m =>
    if n1 ≤ p then
      [if 0 < p ∧ 0 < n1 then
          prev.getD ((n0 * c.nT + tm) * (p * c.MB) + ((n1 - 1) * c.MB + m)) []
        else bufv n0 tm m]
    else []

/-- History of `C_pipe[p, pc]`: pushed by PE `(p, pc)`'s `write_c` tasklet,
popping (for `p > 0`) from `C_pipe[p - 1, pc]`. -/
def C_pipe_hist [Add α] [Mul α] [Zero α] (c : GemmConfig) (A B : ℕ → ℕ → α)
    (bufInit : ℕ → ℕ → ℕ → List α) (regInit : ℕ → ℕ → α) (pc : ℕ) :
    ℕ → List (List α)
  | 0 => drainBody c 0 [] (bufDrain c A B bufInit regInit 0 pc)
  | p + 1 =>
    drainBody c (p + 1) (C_pipe_hist c A B bufInit regInit pc p)
      (bufDrain c A B bufInit regInit (p + 1) pc)

/-! ## Result Collector (`make_write_C`)

Map `{n0: 0:N/P_R, tm: 0:M/T, n1: 0:P_R, m: 0:T/(W*P_C), pe_j: 0:P_C}`; per
iteration pops `C_pipe[P_R-1, pe_j]`, reads
`C_device[n0*P_R + n1, tm*(T/W) + m*P_C + pe_j]`, and writes
`from_kernel + prev_c` back to the same address. -/

/-- Number of earlier collector iterations popping the same slot `pe_j`:
the pop performed at `(n0, tm, n1, m)` is pop number
`((n0*nT + tm) * P_R + n1) * MB + m` of that slot. -/
def C_pop_index (c : GemmConfig) (n0 tm n1 m : ℕ) : ℕ :=
  ((n0 * c.nT + tm) * c.P_R + n1) * c.MB + m

/-- The collector's iteration space, in schedule order. -/
def write_C_events (c : GemmConfig) : List (ℕ × ℕ × ℕ × ℕ × ℕ) :=
  (List.range c.nB).flatMap fun n0 =>
  (List.range c.nT).flatMap fun tm =>
  (List.range c.P_R).flatMap fun n1 =>
  (List.range c.MB).flatMap fun m =>
  (List.range c.P_C).map fun pe_j => (n0, tm, n1, m, pe_j)

/-- The `C_device` address accessed at collector iteration `(n0, tm, n1, m, pe_j)`. -/
def write_C_addr (c : GemmConfig) (n0 tm n1 m pe_j : ℕ) : ℕ × ℕ :=
  (n0 * c.P_R + n1, tm * c.TW + m * c.P_C + pe_j)

/-- Vector popped from `C_pipe[P_R - 1, pe_j]` at collector iteration
`(n0, tm, n1, m, pe_j)`; `hist pc p` is the history of `C_pipe[p, pc]`. -/
def write_C_pop (c : GemmConfig) (hist : ℕ → ℕ → List (List α))
    (n0 tm n1 m pe_j : ℕ) : List α :=
  (hist pe_j (c.P_R - 1)).getD (C_pop_index c n0 tm n1 m) []

/-- One collector iteration: `to_memory = from_kernel + prev_c` written back to
the address both memlets name. -/
def write_C_step [Add α] (st : ℕ → ℕ → List α) (a : ℕ × ℕ) (v : List α) :
    ℕ → ℕ → List α :=
  fun i j => if i = a.1 ∧ j = a.2 then vadd v (st a.1 a.2) else st i j

/-- The whole collector: fold its iteration space over the `C_device` state. -/
def write_C_run [Add α] (c : GemmConfig) (hist : ℕ → ℕ → List (List α))
    (Cdev : ℕ → ℕ → List α) : ℕ → ℕ → List α :=
  (write_C_events c).foldl
    (fun st e =>
      write_C_step st (write_C_addr c e.1 e.2.1 e.2.2.1 e.2.2.2.1 e.2.2.2.2)
        (write_C_pop c hist e.1 e.2.1 e.2.2.1 e.2.2.2.1 e.2.2.2.2)) Cdev

/-! ## The full pipeline -/

/-- Final `C_device` contents: the collector applied to the drain histories of
the PE grid and the vectorized initial C.  `bufInit`/`regInit` are the
arbitrary initial contents of each PE's transient `C_buffer`/`A_reg`. -/
def pipeline_dev [Add α] [Mul α] [Zero α] (c : GemmConfig) (A B C0 : ℕ → ℕ → α)
    (bufInit : ℕ → ℕ → ℕ → List α) (regInit : ℕ → ℕ → α) : ℕ → ℕ → List α :=
  write_C_run c (fun pc p => C_pipe_hist c A B bufInit regInit pc p)
    (C_device0 c C0)

/-- Scalar element `(i, j)` of the result read back to the host
(`copy_to_host` unpacks vector column `j / W`, lane `j % W`). -/
def pipeline_scalar [Add α] [Mul α] [Zero α] (c : GemmConfig) (A B C0 : ℕ → ℕ → α)
    (bufInit : ℕ → ℕ → ℕ → List α) (regInit : ℕ → ℕ → α) (i j : ℕ) : α :=
  (pipeline_dev c A B C0 bufInit regInit i (j / c.W)).getD (j % c.W) 0

/-- Reference semantics of one output scalar: the exact operation order the PE
performs (`((0 + a₀·b₀) + a₁·b₁) + ⋯` over the K reduction steps, then the
collector's final `+ C0`), independent of the array geometry. -/
def gemm_ref_scalar [Add α] [Mul α] [Zero α] (K : ℕ) (A B C0 : ℕ → ℕ → α)
    (i j : ℕ) : α :=
  ((List.range K).foldl (fun acc k => (if k = 0 then 0 else acc) + A i k * B k j) 0)
    + C0 i j

/-! ## Contract-side definitions

For the refinement claims about the two distributors, a second definition
written from the specification's words (§4.1, §4.2), to be compared with the
source-side definition. -/

/-- The §4.1 contract for Distributor A, stated in the spec's own terms:
"for every row-block index n0 in [0, N/P_R), every column-tile index tm in
[0, M/T), every reduction step k in [0, K), and every intra-block row n1 in
[0, P_R): read scalar A[n0·P_R+n1, k] and enqueue it onto row-channel slot
(P_R−1−n1)". -/
def read_A_contract (c : GemmConfig) (A : ℕ → ℕ → α) : List (PushEvent α) :=
  (List.range (c.N / c.P_R)).flatMap fun n0 =>
  (List.range (c.M / c.T)).flatMap fun _tm =>
  (List.range c.K).flatMap fun k =>
  (List.range c.P_R).map fun n1 =>
    ⟨c.P_R - 1 - n1, A (n0 * c.P_R + n1) k⟩

/-- The pushes `read_A` makes for row block `n0` during a single column tile. -/
def A_block_stream (c : GemmConfig) (A : ℕ → ℕ → α) (n0 : ℕ) : List (PushEvent α) :=
  (List.range c.K).flatMap fun k =>
  (List.range c.P_R).map fun n1 =>
    ⟨c.P_R - n1 - 1, A (n0 * c.P_R + n1) k⟩

/-- The §4.2 contract for Distributor B, stated in the spec's own terms:
"for row-block n, column-tile tm, reduction step k, intra-tile offset m in
[0, T/(W·P_C)), and PE-column pe_j in [0, P_C): read vector
B[k, tm·(T/W) + m·P_C + pe_j] and enqueue onto column-channel slot pe_j". -/
def read_B_contract (c : GemmConfig) (B : ℕ → ℕ → α) : List (PushEvent (List α)) :=
  (List.range (c.N / c.P_R)).flatMap fun _n =>
  (List.range (c.M / c.T)).flatMap fun tm =>
  (List.range c.K).flatMap fun k =>
  (List.range (c.T / (c.W * c.P_C))).flatMap fun m =>
  (List.range c.P_C).map fun pe_j =>
    ⟨pe_j, B_device c B k (tm * (c.T / c.W) + m * c.P_C + pe_j)⟩

/-! ## Further observables named by the claims -/

/-- Number of vector slots allocated per PE for `C_buffer`:
`sdfg.add_array("C_buffer", [T / vec_width], ...)`. -/
def C_buffer_len (c : GemmConfig) : ℕ := c.T / c.W

/-- The argument-handling phase of `__main__` (lines 415–450): parse the seven
integers, set the symbols, build and specialize the SDFG.  No divisibility (or
any other) precondition is checked between parsing and running, so setup
accepts every argument tuple. -/
def main_setup (a : GemmConfig) : Except String GemmConfig := Except.ok a

/-- The vectors arriving at the Collector from PE column `pe_j` during the
row-block/column-tile pair `(n0, tm)`: the pops of `C_pipe[P_R-1, pe_j]`
performed by the collector's `(n1, m)` sub-iterations, in schedule order. -/
def collector_arrivals [Add α] [Mul α] [Zero α] (c : GemmConfig) (A B : ℕ → ℕ → α)
    (bufInit : ℕ → ℕ → ℕ → List α) (regInit : ℕ → ℕ → α) (n0 tm pe_j : ℕ) :
    List (List α) :=
  (List.range c.P_R).flatMap fun n1 =>
  (List.range c.MB).map fun m =>
    write_C_pop c (fun pc p => C_pipe_hist c A B bufInit regInit pc p) n0 tm n1 m pe_j

/-- Square of the Frobenius norm of `pipeline − (A·B + C₀)` over the `N × M`
scalar index range (the harness computes `‖C_regression − C‖ / (M·K)`). -/
def gemm_diff_normSq (c : GemmConfig) (A B C0 : ℕ → ℕ → ℚ)
    (bufInit : ℕ → ℕ → ℕ → List ℚ) (regInit : ℕ → ℕ → ℚ) : ℚ :=
  ∑ i in Finset.range c.N, ∑ j in Finset.range c.M,
    (pipeline_scalar c A B C0 bufInit regInit i j -
      ((∑ k in Finset.range c.K, A i k * B k j) + C0 i j)) ^ 2

/-! ## Concrete data for witnesses and counterexamples -/

/-- Witness matrix A over ℚ. -/
def wA : ℕ → ℕ → ℚ := fun i k => (i : ℚ) * 7 + (k : ℚ) * 3 + 1

/-- Witness matrix B over ℚ. -/
def wB : ℕ → ℕ → ℚ := fun k j => (k : ℚ) * 2 + (j : ℚ) + 2

/-- Witness initial C over ℚ. -/
def wC : ℕ → ℕ → ℚ := fun i j => (i : ℚ) * 5 + (j : ℚ) * 11 + 3

/-- Arbitrary junk initial `C_buffer` contents (exercises init-independence). -/
def wBufInit : ℕ → ℕ → ℕ → List ℚ := fun _ _ _ => [55, 56]

/-- A second, different junk initial `C_buffer`. -/
def wBufInit' : ℕ → ℕ → ℕ → List ℚ := fun _ _ _ => [-3]

/-- Arbitrary junk initial `A_reg` contents. -/
def wRegInit : ℕ → ℕ → ℚ := fun _ _ => 9

/-- A second, different junk initial `A_reg`. -/
def wRegInit' : ℕ → ℕ → ℚ := fun _ _ => -17

/-- Witness configuration: N=2 K=2 M=2, a 2×1 PE array, W=1, T=2. -/
def wCfg : GemmConfig := ⟨2, 2, 2, 2, 1, 1, 2⟩

/-- Geometry-variation partner of `wCfg9a`: same N K M, 1×1 array, W=2. -/
def wCfg9b : GemmConfig := ⟨2, 1, 2, 1, 1, 2, 2⟩

/-- Geometry-variation base config: N=2 K=1 M=2, 2×1 array, W=1. -/
def wCfg9a : GemmConfig := ⟨2, 1, 2, 2, 1, 1, 2⟩

/-- Tiny config for the drain-order counterexample: P_R=2, one vector slot. -/
def zCfg : GemmConfig := ⟨2, 1, 1, 2, 1, 1, 1⟩

/-- Drain-order counterexample matrix A over ℤ (row i is constantly i+1). -/
def zA : ℕ → ℕ → ℤ := fun i _ => (i : ℤ) + 1

/-- Drain-order counterexample matrix B over ℤ (all ones). -/
def zB : ℕ → ℕ → ℤ := fun _ _ => 1

/-- Junk initial `C_buffer` over ℤ. -/
def zBufInit : ℕ → ℕ → ℕ → List ℤ := fun _ _ _ => [44]

/-- Junk initial `A_reg` over ℤ. -/
def zRegInit : ℕ → ℕ → ℤ := fun _ _ => 77

/-- A config violating the divisibility invariants (N=3 not divisible by P_R=2). -/
def badCfg : GemmConfig := ⟨3, 4, 2, 2, 1, 1, 2⟩

/-- A valid config with two PE columns (P_C = 2). -/
def c3Cfg : GemmConfig := ⟨2, 1, 4, 1, 2, 1, 4⟩

/-- A concrete drain-channel history assignment for the collector witness. -/
def h5 : ℕ → ℕ → List (List ℚ) := fun _ _ => [[7], [8]]

/-- A concrete `C_device` state for the collector witness. -/
def d5 : ℕ → ℕ → List ℚ := fun _ _ => [4]

/-! ## Generic list lemmas -/

theorem flatMap_range_congr {α : Type} {a : ℕ} {f g : ℕ → List α}
    (h : ∀ i < a, f i = g i) : (List.range a).flatMap f = (List.range a).flatMap g :=
  List.flatMap_congr fun x hx => h x (List.mem_range.mp hx)

theorem map_range_congr {α : Type} {a : ℕ} {f g : ℕ → α}
    (h : ∀ i < a, f i = g i) : (List.range a).map f = (List.range a).map g :=
  List.map_congr_left fun x hx => h x (List.mem_range.mp hx)

theorem length_flatMap_range {α : Type} {a b : ℕ} {g : ℕ → List α}
    (h : ∀ i < a, (g i).length = b) : ((List.range a).flatMap g).length = a * b := by
  rw [List.length_flatMap]
  have : (List.range a).map (List.length ∘ g) = (List.range a).map (fun _ => b) :=
    map_range_congr fun i hi => h i hi
  rw [this, List.map_const', List.length_range, List.sum_replicate, smul_eq_mul]

theorem getElem?_flatMap_range {α : Type} {a b : ℕ} {g : ℕ → List α}
    (hg : ∀ i < a, (g i).length = b) {i j : ℕ} (hi : i < a) (hj : j < b) :
    ((List.range a).flatMap g)[i * b + j]? = (g i)[j]? := by
  induction a with
  | zero => omega
  | succ a ih =>
    rw [List.range_succ, List.flatMap_append]
    have hlen : ((List.range a).flatMap g).length = a * b :=
      length_flatMap_range fun i hi => hg i (Nat.lt_succ_of_lt hi)
    rcases Nat.lt_or_ge i a with h | h
    · have hidx : i * b + j < a * b := by
        calc i * b + j < i * b + b := by omega
          _ = (i + 1) * b := by ring
          _ ≤ a * b := Nat.mul_le_mul_right b h
      rw [List.getElem?_append, if_pos (by rw [hlen]; exact hidx)]
      exact ih (fun i hi => hg i (Nat.lt_succ_of_lt hi)) h
    · have hia : i = a := by omega
      subst hia
      rw [List.getElem?_append, if_neg (by rw [hlen]; omega), hlen]
      have : i * b + j - i * b = j := by omega
      rw [this]
      simp

theorem getD_flatMap_range {α : Type} {a b : ℕ} {g : ℕ → List α}
    (hg : ∀ i < a, (g i).length = b) {i j : ℕ} (hi : i < a) (hj : j < b) (d : α) :
    ((List.range a).flatMap g).getD (i * b + j) d = (g i).getD j d := by
  rw [List.getD_eq_getElem?_getD, List.getD_eq_getElem?_getD,
    getElem?_flatMap_range hg hi hj]

theorem getD_map_range {α : Type} {b : ℕ} (f : ℕ → α) {j : ℕ} (hj : j < b) (d : α) :
    ((List.range b).map f).getD j d = f j := by
  rw [List.getD_eq_getElem?_getD, List.getElem?_map, List.getElem?_range hj]
  rfl

theorem flatMap_range_reconstruct {α : Type} {a b : ℕ} (L : List α) (d : α)
    (h : L.length = a * b) :
    (List.range a).flatMap (fun u => (List.range b).map fun v => L.getD (u * b + v) d) = L := by
  rcases Nat.eq_zero_or_pos b with hb | hb
  · subst hb
    have : L = [] := List.eq_nil_of_length_eq_zero (by omega)
    subst this
    simp
  · have hlen : ((List.range a).flatMap
        (fun u => (List.range b).map fun v => L.getD (u * b + v) d)).length = a * b :=
      length_flatMap_range fun i _ => by rw [List.length_map, List.length_range]
    refine List.ext_getElem (by rw [hlen, h]) ?_
    intro n h₁ h₂
    have h₁' : n < a * b := by rw [hlen] at h₁; exact h₁
    have hi : n / b < a := by
      rw [Nat.div_lt_iff_lt_mul hb]
      omega
    have hj : n % b < b := Nat.mod_lt _ hb
    have hn : n = (n / b) * b + n % b := by
      conv_lhs => rw [← Nat.div_add_mod n b]
      ring
    have e1 : ((List.range a).flatMap
        (fun u => (List.range b).map fun v => L.getD (u * b + v) d))[n]? =
        ((List.range b).map fun v => L.getD ((n / b) * b + v) d)[n % b]? := by
      conv_lhs => rw [hn]
      exact getElem?_flatMap_range (fun i _ => by rw [List.length_map, List.length_range]) hi hj
    have e2 : ((List.range b).map fun v => L.getD ((n / b) * b + v) d)[n % b]? =
        some (L.getD ((n / b) * b + n % b) d) := by
      rw [List.getElem?_map, List.getElem?_range hj]
      rfl
    have e3 : L.getD ((n / b) * b + n % b) d = L[n] := by
      rw [← hn]
      exact List.getD_eq_getElem L d h₂
    have := e1.trans (e2.trans (congrArg some e3))
    rw [List.getElem?_eq_getElem h₁] at this
    exact Option.some.inj this

theorem filter_beq_range {x n : ℕ} (hx : x < n) :
    (List.range n).filter (fun i => i == x) = [x] := by
  induction n with
  | zero => omega
  | succ n ih =>
    rw [List.range_succ, List.filter_append]
    rcases Nat.lt_or_ge x n with h | h
    · rw [ih h]
      have : (n == x) = false := by simp; omega
      simp [this]
    · have hxn : x = n := by omega
      subst hxn
      have h1 : (List.range x).filter (fun i => i == x) = [] := by
        rw [List.filter_eq_nil_iff]
        intro a ha
        simp at ha ⊢
        omega
      rw [h1]
      simp

theorem flatMap_range_eq_single {α : Type} {a i₀ : ℕ} {g : ℕ → List α} (hi : i₀ < a)
    (h : ∀ i < a, i ≠ i₀ → g i = []) : (List.range a).flatMap g = g i₀ := by
  induction a with
  | zero => omega
  | succ a ih =>
    rw [List.range_succ, List.flatMap_append]
    rcases Nat.lt_or_ge i₀ a with hlt | hge
    · rw [ih hlt (fun i hia => h i (Nat.lt_succ_of_lt hia)),
        List.flatMap_cons, List.flatMap_nil, h a (Nat.lt_succ_self a) (by omega)]
      simp
    · have : i₀ = a := by omega
      subst this
      have h1 : (List.range i₀).flatMap g = [] := by
        have : (List.range i₀).flatMap g = (List.range i₀).flatMap (fun _ => []) :=
          flatMap_range_congr fun i hia => h i (Nat.lt_succ_of_lt hia) (by omega)
        rw [this]
        simp
      rw [h1]
      simp

theorem flatMap_range_if_min {α : Type} (p : ℕ) (g : ℕ → List α) (P : ℕ) :
    (List.range P).flatMap (fun i => if i ≤ p then g i else []) =
      (List.range (min (p + 1) P)).flatMap g := by
  induction P with
  | zero => simp
  | succ P ih =>
    rw [List.range_succ, List.flatMap_append, ih]
    rcases Nat.lt_or_ge p P with h | h
    · have h1 : min (p + 1) P = p + 1 := by omega
      have h2 : min (p + 1) (P + 1) = p + 1 := by omega
      rw [h1, h2, List.flatMap_cons, List.flatMap_nil, if_neg (by omega)]
      simp
    · have h1 : min (p + 1) P = P := by omega
      have h2 : min (p + 1) (P + 1) = P + 1 := by omega
      rw [h1, h2, List.range_succ, List.flatMap_append, List.flatMap_cons, List.flatMap_nil,
        if_pos (by omega)]
      simp

theorem flatMap_range_if_le {α : Type} {p P : ℕ} (g : ℕ → List α) (h : p + 1 ≤ P) :
    (List.range P).flatMap (fun i => if i ≤ p then g i else []) =
      (List.range (p + 1)).flatMap g := by
  rw [flatMap_range_if_min, Nat.min_eq_left h]

theorem flatten_replicate_comm {α : Type} (a : ℕ) (L : List α) :
    (List.replicate a L).flatten ++ L = L ++ (List.replicate a L).flatten := by
  induction a with
  | zero => simp
  | succ a ih =>
    rw [List.replicate_succ, List.flatten_cons, List.append_assoc, ih]

theorem flatMap_range_const {α : Type} (a : ℕ) (L : List α) :
    (List.range a).flatMap (fun _ => L) = (List.replicate a L).flatten := by
  induction a with
  | zero => simp
  | succ a ih =>
    rw [List.range_succ, List.flatMap_append, ih, List.replicate_succ, List.flatten_cons,
      List.flatMap_cons, List.flatMap_nil, List.append_nil, flatten_replicate_comm]

theorem foldl_range_succ {α : Type} (f : α → ℕ → α) (x : α) (n : ℕ) :
    (List.range (n + 1)).foldl f x = f ((List.range n).foldl f x) n := by
  rw [List.range_succ, List.foldl_append]
  rfl

/-- Uniqueness of Euclidean decomposition: `q * b + r` with `r < b` determines `q` and `r`. -/
theorem euclid_pair_inj {b q₁ r₁ q₂ r₂ : ℕ} (hb : 0 < b) (h₁ : r₁ < b) (h₂ : r₂ < b)
    (h : q₁ * b + r₁ = q₂ * b + r₂) : q₁ = q₂ ∧ r₁ = r₂ := by
  have div_eq : ∀ q r, r < b → (q * b + r) / b = q := by
    intro q r hr
    rw [Nat.add_comm, Nat.mul_comm, Nat.add_mul_div_left _ _ hb, Nat.div_eq_of_lt hr,
      Nat.zero_add]
  have hq : q₁ = q₂ := by
    have := congrArg (· / b) h
    simpa [div_eq q₁ r₁ h₁, div_eq q₂ r₂ h₂] using this
  subst hq
  exact ⟨rfl, Nat.add_left_cancel h⟩


theorem flatMap_singleton_eq_map {α β : Type} (l : List α) (f : α → β) :
    l.flatMap (fun x => [f x]) = l.map f := by
  induction l with
  | nil => rfl
  | cons a l ih => simp [List.flatMap_cons, ih]

/-- Row-major index bound: `i * b + j < a * b` when `i < a`, `j < b`. -/
theorem lex2_lt {a b i j : ℕ} (hi : i < a) (hj : j < b) : i * b + j < a * b :=
  calc i * b + j < i * b + b := by omega
    _ = (i + 1) * b := by ring
    _ ≤ a * b := Nat.mul_le_mul_right b hi

/-! ## Closed form of the A distribution -/

theorem read_A_filter_core [Zero α] (c : GemmConfig) (A : ℕ → ℕ → α) {r : ℕ}
    (hr : r < c.P_R) (n0 k : ℕ) :
    (((List.range c.P_R).map fun n1 =>
        (⟨c.P_R - n1 - 1, A (n0 * c.P_R + n1) k⟩ : PushEvent α)).filter
      (fun e => e.slot == r)).map (fun e => e.value) =
      [A (n0 * c.P_R + (c.P_R - 1 - r)) k] := by
  rw [List.filter_map]
  have hcong : (List.range c.P_R).filter
      ((fun e : PushEvent α => e.slot == r) ∘ fun n1 =>
        (⟨c.P_R - n1 - 1, A (n0 * c.P_R + n1) k⟩ : PushEvent α)) =
      (List.range c.P_R).filter (fun n1 => n1 == c.P_R - 1 - r) := by
    refine List.filter_congr ?_
    intro n1 hn1
    have hn1' : n1 < c.P_R := List.mem_range.mp hn1
    rw [Bool.eq_iff_iff]
    simp only [Function.comp_apply, beq_iff_eq]
    omega
  rw [hcong, filter_beq_range (by omega : c.P_R - 1 - r < c.P_R)]
  simp

/-- `getD` of the A slot stream at the schedule position of `(n0, tm, k)`. -/
theorem getD_A_stream {β : Type} (c : GemmConfig) (v : ℕ → ℕ → β) {n0 tm k : ℕ}
    (hn0 : n0 < c.nB) (htm : tm < c.nT) (hk : k < c.K) (d : β) :
    ((List.range c.nB).flatMap fun n0' =>
     (List.range c.nT).flatMap fun _tm' =>
     (List.range c.K).map fun k' => v n0' k').getD (A_iter_index c n0 tm k) d =
      v n0 k := by
  have h1 : ∀ i < c.nT, ((List.range c.K).map fun k' => v n0 k').length = c.K :=
    fun _ _ => by rw [List.length_map, List.length_range]
  have h0 : ∀ i < c.nB,
      ((List.range c.nT).flatMap fun _tm' =>
        (List.range c.K).map fun k' => v i k').length = c.nT * c.K :=
    fun i _ => length_flatMap_range fun _ _ => by rw [List.length_map, List.length_range]
  have hidx : A_iter_index c n0 tm k = n0 * (c.nT * c.K) + (tm * c.K + k) := by
    unfold A_iter_index
    ring
  rw [hidx, getD_flatMap_range h0 hn0 (lex2_lt htm hk),
    getD_flatMap_range h1 htm hk, getD_map_range _ hk]

theorem A_pipe_hist_zero [Zero α] (c : GemmConfig) (A : ℕ → ℕ → α) {r : ℕ}
    (hr : r < c.P_R) :
    A_pipe_hist c A r 0 =
      (List.range c.nB).flatMap fun n0 =>
      (List.range c.nT).flatMap fun _tm =>
      (List.range c.K).map fun k => A (n0 * c.P_R + (c.P_R - 1 - r)) k := by
  show ((read_A c A).filter fun e => e.slot == r).map (fun e => e.value) = _
  rw [read_A]
  simp only [List.filter_flatMap, List.map_flatMap]
  refine flatMap_range_congr ?_
  intro n0 _
  refine flatMap_range_congr ?_
  intro _tm _
  rw [← flatMap_singleton_eq_map]
  refine flatMap_range_congr ?_
  intro k _
  exact read_A_filter_core c A hr n0 k

theorem A_pipe_hist_closed [Zero α] (c : GemmConfig) (A : ℕ → ℕ → α) {r pc : ℕ}
    (hr : r < c.P_R) (hpc : pc < c.P_C) :
    A_pipe_hist c A r pc =
      (List.range c.nB).flatMap fun n0 =>
      (List.range c.nT).flatMap fun _tm =>
      (List.range c.K).map fun k => A (n0 * c.P_R + (c.P_R - 1 - r)) k := by
  induction pc with
  | zero => exact A_pipe_hist_zero c A hr
  | succ pc ih =>
    have hpc' : pc < c.P_C := Nat.lt_of_succ_lt hpc
    show A_pipe_hist c A r (pc + 1) = _
    simp only [A_pipe_hist]
    rw [if_pos (by omega : pc < c.P_C - 1), ih hpc']
    refine flatMap_range_congr ?_
    intro n0 hn0
    refine flatMap_range_congr ?_
    intro tm htm
    refine map_range_congr ?_
    intro k hk
    exact getD_A_stream c _ hn0 htm hk 0

/-- The register value of PE `(r, pc)` at step `(n0, tm, k)` is
`A[n0·P_R + (P_R−1−r), k]`: row `r` of the array works on logical row
`P_R−1−r` of the current block (the distributor's index inversion). -/
theorem A_reg_val_closed [Zero α] (c : GemmConfig) (A : ℕ → ℕ → α) (regInit : α)
    {r pc n0 tm k : ℕ} (hr : r < c.P_R) (hpc : pc < c.P_C) (hn0 : n0 < c.nB)
    (htm : tm < c.nT) (hk : k < c.K) :
    A_reg_val c A regInit r pc n0 tm k = A (n0 * c.P_R + (c.P_R - 1 - r)) k := by
  unfold A_reg_val
  simp only [A_reg_state]
  rw [A_pipe_hist_closed c A hr hpc]
  exact getD_A_stream c _ hn0 htm hk 0

/-! ## Closed form of the B distribution -/

theorem read_B_filter_core (c : GemmConfig) (B : ℕ → ℕ → α) {pcc : ℕ}
    (hpc : pcc < c.P_C) (tm k m : ℕ) :
    (((List.range c.P_C).map fun pe_j =>
        (⟨pe_j, B_device c B k (tm * c.TW + m * c.P_C + pe_j)⟩ :
          PushEvent (List α))).filter (fun e => e.slot == pcc)).map
      (fun e => e.value) = [B_device c B k (tm * c.TW + m * c.P_C + pcc)] := by
  rw [List.filter_map]
  have hcong : (List.range c.P_C).filter
      ((fun e : PushEvent (List α) => e.slot == pcc) ∘ fun pe_j =>
        (⟨pe_j, B_device c B k (tm * c.TW + m * c.P_C + pe_j)⟩ :
          PushEvent (List α))) =
      (List.range c.P_C).filter (fun pe_j => pe_j == pcc) := by
    refine List.filter_congr ?_
    intro pe_j _
    rfl
  rw [hcong, filter_beq_range hpc]
  simp

/-- `getD` of the B slot stream at the schedule position of `(n0, tm, k, m)`. -/
theorem getD_B_stream {β : Type} (c : GemmConfig) (v : ℕ → ℕ → ℕ → ℕ → β)
    {n0 tm k m : ℕ} (hn0 : n0 < c.nB) (htm : tm < c.nT) (hk : k < c.K)
    (hm : m < c.MB) (d : β) :
    ((List.range c.nB).flatMap fun n0' =>
     (List.range c.nT).flatMap fun tm' =>
     (List.range c.K).flatMap fun k' =>
     (List.range c.MB).map fun m' => v n0' tm' k' m').getD
      (B_iter_index c n0 tm k m) d = v n0 tm k m := by
  have h2 : ∀ i < c.K,
      ((List.range c.MB).map fun m' => v n0 tm i m').length = c.MB :=
    fun _ _ => by rw [List.length_map, List.length_range]
  have h1 : ∀ i < c.nT,
      ((List.range c.K).flatMap fun k' =>
        (List.range c.MB).map fun m' => v n0 i k' m').length = c.K * c.MB :=
    fun _ _ => length_flatMap_range fun _ _ => by rw [List.length_map, List.length_range]
  have h0 : ∀ i < c.nB,
      ((List.range c.nT).flatMap fun tm' =>
       (List.range c.K).flatMap fun k' =>
       (List.range c.MB).map fun m' => v i tm' k' m').length =
        c.nT * (c.K * c.MB) :=
    fun _ _ => length_flatMap_range fun _ _ =>
      length_flatMap_range fun _ _ => by rw [List.length_map, List.length_range]
  have hidx : B_iter_index c n0 tm k m =
      n0 * (c.nT * (c.K * c.MB)) + (tm * (c.K * c.MB) + (k * c.MB + m)) := by
    unfold B_iter_index
    ring
  rw [hidx, getD_flatMap_range h0 hn0 (lex2_lt htm (lex2_lt hk hm)),
    getD_flatMap_range h1 htm (lex2_lt hk hm), getD_flatMap_range h2 hk hm,
    getD_map_range _ hm]

theorem B_pipe_hist_zero (c : GemmConfig) (B : ℕ → ℕ → α) {pcc : ℕ}
    (hpc : pcc < c.P_C) :
    B_pipe_hist c B pcc 0 =
      (List.range c.nB).flatMap fun _n0 =>
      (List.range c.nT).flatMap fun tm =>
      (List.range c.K).flatMap fun k =>
      (List.range c.MB).map fun m =>
        B_device c B k (tm * c.TW + m * c.P_C + pcc) := by
  show ((read_B c B).filter fun e => e.slot == pcc).map (fun e => e.value) = _
  rw [read_B]
  simp only [List.filter_flatMap, List.map_flatMap]
  refine flatMap_range_congr ?_
  intro n0 _
  refine flatMap_range_congr ?_
  intro tm _
  refine flatMap_range_congr ?_
  intro k _
  rw [← flatMap_singleton_eq_map]
  refine flatMap_range_congr ?_
  intro m _
  exact read_B_filter_core c B hpc tm k m

theorem B_pipe_hist_closed (c : GemmConfig) (B : ℕ → ℕ → α) {r pcc : ℕ}
    (hr : r < c.P_R) (hpc : pcc < c.P_C) :
    B_pipe_hist c B pcc r =
      (List.range c.nB).flatMap fun _n0 =>
      (List.range c.nT).flatMap fun tm =>
      (List.range c.K).flatMap fun k =>
      (List.range c.MB).map fun m =>
        B_device c B k (tm * c.TW + m * c.P_C + pcc) := by
  induction r with
  | zero => exact B_pipe_hist_zero c B hpc
  | succ r ih =>
    have hr' : r < c.P_R := Nat.lt_of_succ_lt hr
    show B_pipe_hist c B pcc (r + 1) = _
    simp only [B_pipe_hist]
    rw [if_pos (by omega : r < c.P_R - 1), ih hr']
    refine flatMap_range_congr ?_
    intro n0 hn0
    refine flatMap_range_congr ?_
    intro tm htm
    refine flatMap_range_congr ?_
    intro k hk
    refine map_range_congr ?_
    intro m hm
    exact getD_B_stream c _ hn0 htm hk hm []

/-- The B vector popped by PE `(r, pc)` at `(n0, tm, k, m)` is
`B_device[k, tm·(T/W) + m·P_C + pc]`, for every PE row `r`. -/
theorem B_val_closed (c : GemmConfig) (B : ℕ → ℕ → α) {r pcc n0 tm k m : ℕ}
    (hr : r < c.P_R) (hpc : pcc < c.P_C) (hn0 : n0 < c.nB) (htm : tm < c.nT)
    (hk : k < c.K) (hm : m < c.MB) :
    B_val c B r pcc n0 tm k m = B_device c B k (tm * c.TW + m * c.P_C + pcc) := by
  unfold B_val
  rw [B_pipe_hist_closed c B hr hpc]
  exact getD_B_stream c _ hn0 htm hk hm []

/-! ## Closed form of the compute phase -/

theorem foldl_congr_mem {β γ : Type} {l : List γ} {f : β → γ → β} {x : β}
    (g : β → γ → β) (h : ∀ acc, ∀ b ∈ l, f acc b = g acc b) :
    l.foldl f x = l.foldl g x := by
  induction l generalizing x with
  | nil => rfl
  | cons b l ih =>
    rw [List.foldl_cons, List.foldl_cons, h x b (List.mem_cons_self b l)]
    exact ih fun acc b' hb' => h acc b' (List.mem_cons_of_mem _ hb')

/-- A fold of pointwise slot updates, where the new value of slot `m'` depends
only on the old value of slot `m'`, updates each slot below the bound once. -/
theorem foldl_pointwise_update {β : Type} (F : ℕ → β → β) (q : ℕ) (st : ℕ → β)
    (m : ℕ) :
    ((List.range q).foldl
      (fun st' m' => fun m'' => if m'' = m' then F m' (st' m') else st' m'') st) m =
      if m < q then F m (st m) else st m := by
  induction q generalizing st with
  | zero => simp
  | succ q ih =>
    rw [foldl_range_succ]
    show (if m = q then F q (((List.range q).foldl _ st) q)
      else ((List.range q).foldl _ st) m) = _
    by_cases hmq : m = q
    · subst hmq
      rw [if_pos rfl, ih st, if_neg (by omega), if_pos (by omega)]
    · rw [if_neg hmq, ih st]
      rcases Nat.lt_or_ge m q with h | h
      · rw [if_pos h, if_pos (by omega)]
      · rw [if_neg (by omega), if_neg (by omega)]

/-- Effect of one `m`-loop sweep on slot `m` of `C_buffer`. -/
theorem mLoop_apply [Add α] [Mul α] [Zero α] (c : GemmConfig) (k : ℕ) (a : α)
    (bk : ℕ → List α) (st : ℕ → List α) (m : ℕ) :
    mLoop c k a bk st m =
      if m < c.MB then multiply_add c.W k (st m) a (bk m) else st m := by
  unfold mLoop bufUpdate
  exact foldl_pointwise_update (fun m' v => multiply_add c.W k v a (bk m')) c.MB st m

theorem kLoop_aux [Add α] [Mul α] [Zero α] (c : GemmConfig) (ar : ℕ → α)
    (bv : ℕ → ℕ → List α) (n : ℕ) (st : ℕ → List α) {m : ℕ} (hm : m < c.MB) :
    ((List.range n).foldl (fun st k => mLoop c k (ar k) (bv k) st) st) m =
      (List.range n).foldl
        (fun acc k => multiply_add c.W k acc (ar k) (bv k m)) (st m) := by
  induction n with
  | zero => rfl
  | succ n ih =>
    rw [foldl_range_succ, foldl_range_succ, mLoop_apply, if_pos hm, ih]

/-- Slot `m` of `C_buffer` after the `k`-loop: the scalar-register/B-vector
accumulation at that slot only. -/
theorem kLoop_apply [Add α] [Mul α] [Zero α] (c : GemmConfig) (ar : ℕ → α)
    (bv : ℕ → ℕ → List α) (st : ℕ → List α) {m : ℕ} (hm : m < c.MB) :
    kLoop c ar bv st m =
      (List.range c.K).foldl
        (fun acc k => multiply_add c.W k acc (ar k) (bv k m)) (st m) :=
  kLoop_aux c ar bv c.K st hm

/-- `multiply_add` at `k = 0` on a `W`-packed vector, lanewise. -/
theorem multiply_add_zero_map [Add α] [Mul α] [Zero α] (Wd : ℕ) (x : List α)
    (a0 : α) (g : ℕ → α) :
    multiply_add Wd 0 x a0 ((List.range Wd).map g) =
      (List.range Wd).map fun l => 0 + a0 * g l := by
  unfold multiply_add vadd vscale vzero
  rw [if_pos rfl, List.map_map,
    show List.replicate Wd (0 : α) = (List.range Wd).map (fun _ => 0) from by
      rw [List.map_const', List.length_range],
    List.zipWith_map, List.zipWith_same]
  rfl

/-- `multiply_add` at `k ≠ 0` on `W`-packed vectors, lanewise. -/
theorem multiply_add_succ_map [Add α] [Mul α] [Zero α] (Wd k : ℕ) (hk : k ≠ 0)
    (f g : ℕ → α) (a0 : α) :
    multiply_add Wd k ((List.range Wd).map f) a0 ((List.range Wd).map g) =
      (List.range Wd).map fun l => f l + a0 * g l := by
  unfold multiply_add vadd vscale vzero
  rw [if_neg hk, List.map_map, List.zipWith_map, List.zipWith_same]
  rfl

/-- The accumulation over `n ≥ 1` reduction steps, lanewise; the start vector
`x` is irrelevant because step `k = 0` discards it. -/
theorem kfold_lanes [Add α] [Mul α] [Zero α] (Wd : ℕ) (a : ℕ → α)
    (bs : ℕ → ℕ → α) {n : ℕ} (hn : 0 < n) (x : List α) :
    (List.range n).foldl
      (fun acc k => multiply_add Wd k acc (a k) ((List.range Wd).map (bs k))) x =
      (List.range Wd).map fun l =>
        (List.range n).foldl
          (fun acc k => (if k = 0 then 0 else acc) + a k * bs k l) 0 := by
  induction n with
  | zero => omega
  | succ n ih =>
    rcases Nat.eq_zero_or_pos n with h0 | hpos
    · subst h0
      rw [foldl_range_succ]
      rw [show (List.range 0).foldl
        (fun acc k => multiply_add Wd k acc (a k) ((List.range Wd).map (bs k))) x = x
        from rfl]
      rw [multiply_add_zero_map]
      refine map_range_congr ?_
      intro l _
      rw [foldl_range_succ]
      rfl
    · rw [foldl_range_succ, ih hpos,
        multiply_add_succ_map Wd n (by omega) _ (bs n) (a n)]
      refine map_range_congr ?_
      intro l _
      rw [foldl_range_succ, if_neg (by omega)]

/-- Closed form of a PE's finished buffer slot: PE `(p, pc)` accumulates, for
logical row `n0·P_R + (P_R−1−p)` and vector column `tm·TW + m·P_C + pc`, the
K-step multiply-accumulate — independent of the transient initial contents. -/
theorem bufDrain_closed [Add α] [Mul α] [Zero α] (c : GemmConfig)
    (A B : ℕ → ℕ → α) (bufInit : ℕ → ℕ → ℕ → List α) (regInit : ℕ → ℕ → α)
    {p pcc n0 tm m : ℕ} (hv : c.valid) (hp : p < c.P_R) (hpc : pcc < c.P_C)
    (hn0 : n0 < c.nB) (htm : tm < c.nT) (hm : m < c.MB) :
    bufDrain c A B bufInit regInit p pcc n0 tm m =
      (List.range c.W).map fun l =>
        (List.range c.K).foldl
          (fun acc k => (if k = 0 then 0 else acc) +
            A (n0 * c.P_R + (c.P_R - 1 - p)) k *
              B k ((tm * c.TW + m * c.P_C + pcc) * c.W + l)) 0 := by
  obtain ⟨hN, hK, hM, hPR, hPC, hW, hT, hdN, hdM, hdT⟩ := hv
  have hnT : 0 < c.nT := Nat.div_pos (Nat.le_of_dvd hM hdM) hT
  unfold bufDrain
  show bufStateBefore c A B p pcc (bufInit p pcc) (regInit p pcc)
    (n0 * c.nT + tm + 1) m = _
  simp only [bufStateBefore]
  have hdiv : (n0 * c.nT + tm) / c.nT = n0 := by
    rw [Nat.add_comm, Nat.mul_comm, Nat.add_mul_div_left _ _ hnT,
      Nat.div_eq_of_lt htm, Nat.zero_add]
  have hmod : (n0 * c.nT + tm) % c.nT = tm := by
    rw [Nat.add_comm, Nat.mul_comm, Nat.add_mul_mod_self_left, Nat.mod_eq_of_lt htm]
  rw [hdiv, hmod, kLoop_apply c _ _ _ hm]
  rw [foldl_congr_mem (fun acc k => multiply_add c.W k acc
      (A (n0 * c.P_R + (c.P_R - 1 - p)) k)
      ((List.range c.W).map fun l =>
        B k ((tm * c.TW + m * c.P_C + pcc) * c.W + l))) ?_]
  · exact kfold_lanes c.W _ _ hK _
  · intro acc k hk
    have hk' : k < c.K := List.mem_range.mp hk
    rw [A_reg_val_closed c A _ hp hpc hn0 htm hk',
      B_val_closed c B hp hpc hn0 htm hk' hm]
    rfl

/-! ## Closed form of the drain relay -/

/-- `getD` of a 4-level lexicographic stream at the encoded position. -/
theorem getD_lex4 {β : Type} {a b e f : ℕ} (v : ℕ → ℕ → ℕ → ℕ → β) {i j k m : ℕ}
    (hi : i < a) (hj : j < b) (hk : k < e) (hm : m < f) (d : β) :
    ((List.range a).flatMap fun i' =>
     (List.range b).flatMap fun j' =>
     (List.range e).flatMap fun k' =>
     (List.range f).map fun m' => v i' j' k' m').getD
      (((i * b + j) * e + k) * f + m) d = v i j k m := by
  have h2 : ∀ x < e, ((List.range f).map fun m' => v i j x m').length = f :=
    fun _ _ => by rw [List.length_map, List.length_range]
  have h1 : ∀ x < b,
      ((List.range e).flatMap fun k' =>
        (List.range f).map fun m' => v i x k' m').length = e * f :=
    fun _ _ => length_flatMap_range fun _ _ => by rw [List.length_map, List.length_range]
  have h0 : ∀ x < a,
      ((List.range b).flatMap fun j' =>
       (List.range e).flatMap fun k' =>
       (List.range f).map fun m' => v x j' k' m').length = b * (e * f) :=
    fun _ _ => length_flatMap_range fun _ _ =>
      length_flatMap_range fun _ _ => by rw [List.length_map, List.length_range]
  have hidx : ((i * b + j) * e + k) * f + m =
      i * (b * (e * f)) + (j * (e * f) + (k * f + m)) := by ring
  rw [hidx, getD_flatMap_range h0 hi (lex2_lt hj (lex2_lt hk hm)),
    getD_flatMap_range h1 hj (lex2_lt hk hm), getD_flatMap_range h2 hk hm,
    getD_map_range _ hm]

/-- Normal form of `drainBody`: the `n1` loop restricted to `n1 ≤ p`, with the
inner conditional made explicit. -/
theorem drainBody_eq (c : GemmConfig) (p : ℕ) (prev : List (List α))
    (bufv : ℕ → ℕ → ℕ → List α) (hp : p < c.P_R) :
    drainBody c p prev bufv =
      (List.range c.nB).flatMap fun n0 =>
      (List.range c.nT).flatMap fun tm =>
      (List.range (p + 1)).flatMap fun n1 =>
      (List.range c.MB).map fun m =>
        if 0 < p ∧ 0 < n1 then
          prev.getD ((n0 * c.nT + tm) * (p * c.MB) + ((n1 - 1) * c.MB + m)) []
        else bufv n0 tm m := by
  unfold drainBody
  refine flatMap_range_congr ?_
  intro n0 _
  refine flatMap_range_congr ?_
  intro tm _
  have hstep : ∀ n1 : ℕ,
      ((List.range c.MB).flatMap fun m =>
        if n1 ≤ p then
          [if 0 < p ∧ 0 < n1 then
              prev.getD ((n0 * c.nT + tm) * (p * c.MB) + ((n1 - 1) * c.MB + m)) []
            else bufv n0 tm m]
        else []) =
      if n1 ≤ p then
        (List.range c.MB).map fun m =>
          if 0 < p ∧ 0 < n1 then
            prev.getD ((n0 * c.nT + tm) * (p * c.MB) + ((n1 - 1) * c.MB + m)) []
          else bufv n0 tm m
      else [] := by
    intro n1
    by_cases h : n1 ≤ p
    · simp only [if_pos h]
      exact flatMap_singleton_eq_map _ _
    · simp only [if_neg h]
      simp
  trans ((List.range c.P_R).flatMap fun n1 =>
    if n1 ≤ p then
      (List.range c.MB).map fun m =>
        if 0 < p ∧ 0 < n1 then
          prev.getD ((n0 * c.nT + tm) * (p * c.MB) + ((n1 - 1) * c.MB + m)) []
        else bufv n0 tm m
    else [])
  · exact flatMap_range_congr fun n1 _ => hstep n1
  · exact flatMap_range_if_le _ (by omega)

/-- Structure of the drained stream: per pair `(n0, tm)`, `C_pipe[p, pc]`
carries the finished buffers of PEs `p, p−1, …, 0` of column `pc`, in that
(descending PE-row) order. -/
theorem C_pipe_hist_closed [Add α] [Mul α] [Zero α] (c : GemmConfig)
    (A B : ℕ → ℕ → α) (bufInit : ℕ → ℕ → ℕ → List α) (regInit : ℕ → ℕ → α)
    {pcc p : ℕ} (hp : p < c.P_R) :
    C_pipe_hist c A B bufInit regInit pcc p =
      (List.range c.nB).flatMap fun n0 =>
      (List.range c.nT).flatMap fun tm =>
      (List.range (p + 1)).flatMap fun d =>
      (List.range c.MB).map fun m =>
        bufDrain c A B bufInit regInit (p - d) pcc n0 tm m := by
  induction p with
  | zero =>
    show drainBody c 0 [] (bufDrain c A B bufInit regInit 0 pcc) = _
    rw [drainBody_eq c 0 [] _ hp]
    refine flatMap_range_congr ?_
    intro n0 _
    refine flatMap_range_congr ?_
    intro tm _
    refine flatMap_range_congr ?_
    intro n1 h1
    have hn1 : n1 = 0 := by omega
    subst hn1
    refine map_range_congr ?_
    intro m _
    rw [if_neg (by omega)]
  | succ p ih =>
    have hp' : p < c.P_R := Nat.lt_of_succ_lt hp
    show drainBody c (p + 1) (C_pipe_hist c A B bufInit regInit pcc p)
      (bufDrain c A B bufInit regInit (p + 1) pcc) = _
    rw [drainBody_eq c (p + 1) _ _ hp, ih hp']
    refine flatMap_range_congr ?_
    intro n0 hn0
    refine flatMap_range_congr ?_
    intro tm htm
    refine flatMap_range_congr ?_
    intro n1 h1
    refine map_range_congr ?_
    intro m hm
    by_cases hz : 0 < n1
    · rw [if_pos ⟨by omega, hz⟩]
      have hidx : (n0 * c.nT + tm) * ((p + 1) * c.MB) + ((n1 - 1) * c.MB + m) =
          ((n0 * c.nT + tm) * (p + 1) + (n1 - 1)) * c.MB + m := by ring
      rw [hidx,
        getD_lex4 (fun i j k m' => bufDrain c A B bufInit regInit (p - k) pcc i j m')
          hn0 htm (by omega : n1 - 1 < p + 1) hm []]
      have harg : p - (n1 - 1) = p + 1 - n1 := by omega
      rw [harg]
    · have hn1 : n1 = 0 := by omega
      subst hn1
      rw [if_neg (by omega)]
      rfl

/-! ## Closed form of the collector -/

theorem valid_TW_eq (c : GemmConfig) (hv : c.valid) : c.TW = c.MB * c.P_C := by
  obtain ⟨hN, hK, hM, hPR, hPC, hW, hT, hdN, hdM, hdT⟩ := hv
  obtain ⟨qq, hqq⟩ := hdT
  unfold GemmConfig.TW GemmConfig.MB
  rw [hqq, Nat.mul_div_cancel_left _ (by positivity),
    show c.W * c.P_C * qq = c.W * (c.P_C * qq) from by ring,
    Nat.mul_div_cancel_left _ hW]
  ring

theorem valid_MB_pos (c : GemmConfig) (hv : c.valid) : 0 < c.MB := by
  obtain ⟨hN, hK, hM, hPR, hPC, hW, hT, hdN, hdM, hdT⟩ := hv
  exact Nat.div_pos (Nat.le_of_dvd hT hdT) (by positivity)

theorem valid_TW_pos (c : GemmConfig) (hv : c.valid) : 0 < c.TW := by
  rw [valid_TW_eq c hv]
  have := valid_MB_pos c hv
  have : 0 < c.P_C := hv.2.2.2.2.1
  positivity

/-- Value of the collector fold at one address: the fold of the pops of the
iterations that target that address, over the initial contents. -/
theorem foldl_write_C_filter [Add α] (c : GemmConfig)
    (hist : ℕ → ℕ → List (List α)) (es : List (ℕ × ℕ × ℕ × ℕ × ℕ))
    (st : ℕ → ℕ → List α) (i j : ℕ) :
    (es.foldl
      (fun st e =>
        write_C_step st (write_C_addr c e.1 e.2.1 e.2.2.1 e.2.2.2.1 e.2.2.2.2)
          (write_C_pop c hist e.1 e.2.1 e.2.2.1 e.2.2.2.1 e.2.2.2.2)) st) i j =
      ((es.filter fun e =>
          write_C_addr c e.1 e.2.1 e.2.2.1 e.2.2.2.1 e.2.2.2.2 == (i, j)).map
        fun e => write_C_pop c hist e.1 e.2.1 e.2.2.1 e.2.2.2.1 e.2.2.2.2).foldl
        (fun acc v => vadd v acc) (st i j) := by
  induction es generalizing st with
  | nil => rfl
  | cons e es ih =>
    rw [List.foldl_cons, ih, List.filter_cons]
    by_cases h : write_C_addr c e.1 e.2.1 e.2.2.1 e.2.2.2.1 e.2.2.2.2 = (i, j)
    · rw [if_pos (by simp [h]), List.map_cons, List.foldl_cons]
      have hstep : write_C_step st
          (write_C_addr c e.1 e.2.1 e.2.2.1 e.2.2.2.1 e.2.2.2.2)
          (write_C_pop c hist e.1 e.2.1 e.2.2.1 e.2.2.2.1 e.2.2.2.2) i j =
          vadd (write_C_pop c hist e.1 e.2.1 e.2.2.1 e.2.2.2.1 e.2.2.2.2)
            (st i j) := by
        unfold write_C_step
        rw [if_pos (by constructor <;> rw [h])]
        rw [h]
      rw [hstep]
    · rw [if_neg (by simp [h])]
      have hstep : write_C_step st
          (write_C_addr c e.1 e.2.1 e.2.2.1 e.2.2.2.1 e.2.2.2.2)
          (write_C_pop c hist e.1 e.2.1 e.2.2.1 e.2.2.2.1 e.2.2.2.2) i j =
          st i j := by
        unfold write_C_step
        rw [if_neg (by
          intro hc
          exact h (Prod.ext_iff.mpr ⟨hc.1.symm, hc.2.symm⟩))]
      rw [hstep]

/-- Filtering a 5-level lexicographic tuple enumeration by a predicate that
holds for exactly one bounded tuple yields that tuple alone. -/
theorem filter_lex5_eq_single {a b e f g : ℕ} {i j k m p : ℕ}
    (hi : i < a) (hj : j < b) (hk : k < e) (hm : m < f) (hp : p < g)
    (q : ℕ × ℕ × ℕ × ℕ × ℕ → Bool)
    (hq : ∀ i' < a, ∀ j' < b, ∀ k' < e, ∀ m' < f, ∀ p' < g,
      (q (i', j', k', m', p') = true) ↔
        (i' = i ∧ j' = j ∧ k' = k ∧ m' = m ∧ p' = p)) :
    ((List.range a).flatMap fun i' =>
     (List.range b).flatMap fun j' =>
     (List.range e).flatMap fun k' =>
     (List.range f).flatMap fun m' =>
     (List.range g).map fun p' => (i', j', k', m', p')).filter q =
      [(i, j, k, m, p)] := by
  simp only [List.filter_flatMap]
  have leaf : ∀ i' < a, ∀ j' < b, ∀ k' < e, ∀ m' < f,
      (((List.range g).map fun p' => (i', j', k', m', p')).filter q) =
        if i' = i ∧ j' = j ∧ k' = k ∧ m' = m then [(i, j, k, m, p)] else [] := by
    intro i' hi' j' hj' k' hk' m' hm'
    rw [List.filter_map]
    by_cases hcond : i' = i ∧ j' = j ∧ k' = k ∧ m' = m
    · obtain ⟨rfl, rfl, rfl, rfl⟩ := hcond
      rw [if_pos ⟨rfl, rfl, rfl, rfl⟩]
      have hfc : (List.range g).filter (q ∘ fun p' => (i', j', k', m', p')) =
          (List.range g).filter fun p' => p' == p := by
        refine List.filter_congr ?_
        intro p' hp'
        have hp'' : p' < g := List.mem_range.mp hp'
        rw [Bool.eq_iff_iff, Function.comp_apply, beq_iff_eq,
          hq i' hi' j' hj' k' hk' m' hm' p' hp'']
        omega
      rw [hfc, filter_beq_range hp]
      rfl
    · rw [if_neg hcond]
      have hnil : (List.range g).filter (q ∘ fun p' => (i', j', k', m', p')) = [] := by
        rw [List.filter_eq_nil_iff]
        intro p' hp'
        have hp'' : p' < g := List.mem_range.mp hp'
        simp only [Function.comp_apply]
        rw [hq i' hi' j' hj' k' hk' m' hm' p' hp'']
        intro hcc
        exact hcond ⟨hcc.1, hcc.2.1, hcc.2.2.1, hcc.2.2.2.1⟩
      rw [hnil]
      rfl
  have L4 : ∀ i' < a, ∀ j' < b, ∀ k' < e,
      ((List.range f).flatMap fun m' =>
        ((List.range g).map fun p' => (i', j', k', m', p')).filter q) =
        if i' = i ∧ j' = j ∧ k' = k then [(i, j, k, m, p)] else [] := by
    intro i' hi' j' hj' k' hk'
    by_cases hc : i' = i ∧ j' = j ∧ k' = k
    · obtain ⟨rfl, rfl, rfl⟩ := hc
      rw [if_pos ⟨rfl, rfl, rfl⟩]
      refine Eq.trans (flatMap_range_eq_single hm ?_) ?_
      · intro m' hm' hne
        rw [leaf i' hi' j' hj' k' hk' m' hm',
          if_neg (by intro hcc; exact hne hcc.2.2.2)]
      · rw [leaf i' hi' j' hj' k' hk' m hm, if_pos ⟨rfl, rfl, rfl, rfl⟩]
    · rw [if_neg hc]
      trans ((List.range f).flatMap fun _ => ([] : List (ℕ × ℕ × ℕ × ℕ × ℕ)))
      · refine flatMap_range_congr ?_
        intro m' hm'
        rw [leaf i' hi' j' hj' k' hk' m' hm',
          if_neg (by intro hcc; exact hc ⟨hcc.1, hcc.2.1, hcc.2.2.1⟩)]
      · simp
  have L3 : ∀ i' < a, ∀ j' < b,
      ((List.range e).flatMap fun k' =>
       (List.range f).flatMap fun m' =>
        ((List.range g).map fun p' => (i', j', k', m', p')).filter q) =
        if i' = i ∧ j' = j then [(i, j, k, m, p)] else [] := by
    intro i' hi' j' hj'
    by_cases hc : i' = i ∧ j' = j
    · obtain ⟨rfl, rfl⟩ := hc
      rw [if_pos ⟨rfl, rfl⟩]
      refine Eq.trans (flatMap_range_eq_single hk ?_) ?_
      · intro k' hk' hne
        rw [L4 i' hi' j' hj' k' hk', if_neg (by intro hcc; exact hne hcc.2.2)]
      · rw [L4 i' hi' j' hj' k hk, if_pos ⟨rfl, rfl, rfl⟩]
    · rw [if_neg hc]
      trans ((List.range e).flatMap fun _ => ([] : List (ℕ × ℕ × ℕ × ℕ × ℕ)))
      · refine flatMap_range_congr ?_
        intro k' hk'
        rw [L4 i' hi' j' hj' k' hk', if_neg (by intro hcc; exact hc ⟨hcc.1, hcc.2.1⟩)]
      · simp
  have L2 : ∀ i' < a,
      ((List.range b).flatMap fun j' =>
       (List.range e).flatMap fun k' =>
       (List.range f).flatMap fun m' =>
        ((List.range g).map fun p' => (i', j', k', m', p')).filter q) =
        if i' = i then [(i, j, k, m, p)] else [] := by
    intro i' hi'
    by_cases hc : i' = i
    · subst hc
      rw [if_pos rfl]
      refine Eq.trans (flatMap_range_eq_single hj ?_) ?_
      · intro j' hj' hne
        rw [L3 i' hi' j' hj', if_neg (by intro hcc; exact hne hcc.2)]
      · rw [L3 i' hi' j hj, if_pos ⟨rfl, rfl⟩]
    · rw [if_neg hc]
      trans ((List.range b).flatMap fun _ => ([] : List (ℕ × ℕ × ℕ × ℕ × ℕ)))
      · refine flatMap_range_congr ?_
        intro j' hj'
        rw [L3 i' hi' j' hj', if_neg (by intro hcc; exact hc hcc.1)]
      · simp
  refine Eq.trans (flatMap_range_eq_single hi ?_) ?_
  · intro i' hi' hne
    rw [L2 i' hi', if_neg hne]
  · rw [L2 i hi, if_pos rfl]

/-- Among all collector iterations, exactly one targets the address of
`(n0, tm, n1, m, pe_j)`: the addressing is injective on the iteration space. -/
theorem write_C_events_filter (c : GemmConfig) (hv : c.valid)
    {n0 tm n1 m pe_j : ℕ} (hn0 : n0 < c.nB) (htm : tm < c.nT) (hn1 : n1 < c.P_R)
    (hm : m < c.MB) (hpe : pe_j < c.P_C) :
    (write_C_events c).filter
      (fun t => write_C_addr c t.1 t.2.1 t.2.2.1 t.2.2.2.1 t.2.2.2.2 ==
        (n0 * c.P_R + n1, tm * c.TW + m * c.P_C + pe_j)) =
      [(n0, tm, n1, m, pe_j)] := by
  have hPR : 0 < c.P_R := hv.2.2.2.1
  have hPC : 0 < c.P_C := hv.2.2.2.2.1
  have hTW := valid_TW_eq c hv
  have hTW0 := valid_TW_pos c hv
  refine filter_lex5_eq_single hn0 htm hn1 hm hpe _ ?_
  intro i' hi' j' hj' k' hk' m' hm' p' hp'
  rw [beq_iff_eq]
  unfold write_C_addr
  rw [Prod.mk.injEq]
  constructor
  · rintro ⟨h1, h2⟩
    obtain ⟨e1, e2⟩ := euclid_pair_inj hPR hk' hn1 h1
    rw [add_assoc, add_assoc] at h2
    have hb1 : m' * c.P_C + p' < c.TW := by
      rw [hTW]
      exact lex2_lt hm' hp'
    have hb2 : m * c.P_C + pe_j < c.TW := by
      rw [hTW]
      exact lex2_lt hm hpe
    obtain ⟨e3, e4⟩ := euclid_pair_inj hTW0 hb1 hb2 h2
    obtain ⟨e5, e6⟩ := euclid_pair_inj hPC hp' hpe e4
    exact ⟨e1, e3, e2, e5, e6⟩
  · rintro ⟨rfl, rfl, rfl, rfl, rfl⟩
    exact ⟨rfl, rfl⟩

/-- The collector's effect on the address written at `(n0, tm, n1, m, pe_j)`:
the popped vector is added onto the pre-existing contents of that address. -/
theorem write_C_run_addr [Add α] (c : GemmConfig) (hist : ℕ → ℕ → List (List α))
    (Cdev : ℕ → ℕ → List α) (hv : c.valid) {n0 tm n1 m pe_j : ℕ}
    (hn0 : n0 < c.nB) (htm : tm < c.nT) (hn1 : n1 < c.P_R) (hm : m < c.MB)
    (hpe : pe_j < c.P_C) :
    write_C_run c hist Cdev (n0 * c.P_R + n1) (tm * c.TW + m * c.P_C + pe_j) =
      vadd (write_C_pop c hist n0 tm n1 m pe_j)
        (Cdev (n0 * c.P_R + n1) (tm * c.TW + m * c.P_C + pe_j)) := by
  unfold write_C_run
  rw [foldl_write_C_filter, write_C_events_filter c hv hn0 htm hn1 hm hpe]
  rfl

/-! ## Master closed form of the pipeline -/

/-- Every in-range output scalar of the pipeline equals the reference scalar
`((0 + a₀b₀) + a₁b₁) + ⋯ + C₀[i,j]` — for any scalar type with `Add`/`Mul`/`Zero`
(no algebraic laws assumed, so the operation order is preserved exactly), any
valid configuration, and any initial transient contents. -/
theorem pipeline_scalar_closed [Add α] [Mul α] [Zero α] (c : GemmConfig)
    (A B C0 : ℕ → ℕ → α) (bufInit : ℕ → ℕ → ℕ → List α) (regInit : ℕ → ℕ → α)
    {i j : ℕ} (hv : c.valid) (hi : i < c.N) (hj : j < c.M) :
    pipeline_scalar c A B C0 bufInit regInit i j = gemm_ref_scalar c.K A B C0 i j := by
  obtain ⟨hN, hK, hM, hPR, hPC, hW, hT, hdN, hdM, hdT⟩ := id hv
  have hTWeq := valid_TW_eq c hv
  have hTW0 := valid_TW_pos c hv
  have hWM : c.W ∣ c.M := dvd_trans (dvd_trans (dvd_mul_right c.W c.P_C) hdT) hdM
  have hNeq : c.nB * c.P_R = c.N := Nat.div_mul_cancel hdN
  have hMW : c.M / c.W = c.nT * c.TW := by
    have h1 : c.nT * c.T = c.M := Nat.div_mul_cancel hdM
    have h2 : c.TW * c.W = c.T :=
      Nat.div_mul_cancel (dvd_trans (dvd_mul_right c.W c.P_C) hdT)
    calc c.M / c.W = (c.nT * (c.TW * c.W)) / c.W := by rw [h2, h1]
      _ = (c.nT * c.TW) * c.W / c.W := by ring_nf
      _ = c.nT * c.TW := Nat.mul_div_cancel _ hW
  have hi_dec : i = (i / c.P_R) * c.P_R + i % c.P_R := by
    rw [Nat.mul_comm]
    exact (Nat.div_add_mod i c.P_R).symm
  have hn0 : i / c.P_R < c.nB := by
    rw [Nat.div_lt_iff_lt_mul hPR, hNeq]
    exact hi
  have hn1 : i % c.P_R < c.P_R := Nat.mod_lt _ hPR
  have hvcolM : j / c.W < c.nT * c.TW := by
    rw [← hMW, Nat.div_lt_iff_lt_mul hW, Nat.div_mul_cancel hWM]
    exact hj
  have htm : (j / c.W) / c.TW < c.nT := by
    rw [Nat.div_lt_iff_lt_mul hTW0]
    exact hvcolM
  have hr2 : (j / c.W) % c.TW < c.TW := Nat.mod_lt _ hTW0
  have hm : ((j / c.W) % c.TW) / c.P_C < c.MB := by
    rw [Nat.div_lt_iff_lt_mul hPC, ← hTWeq]
    exact hr2
  have hpe : ((j / c.W) % c.TW) % c.P_C < c.P_C := Nat.mod_lt _ hPC
  have hlane : j % c.W < c.W := Nat.mod_lt _ hW
  have hvcol_dec : j / c.W =
      ((j / c.W) / c.TW) * c.TW + (((j / c.W) % c.TW) / c.P_C) * c.P_C +
        ((j / c.W) % c.TW) % c.P_C := by
    have h1 : j / c.W = ((j / c.W) / c.TW) * c.TW + (j / c.W) % c.TW := by
      rw [Nat.mul_comm]
      exact (Nat.div_add_mod _ _).symm
    have h2 : (j / c.W) % c.TW =
        (((j / c.W) % c.TW) / c.P_C) * c.P_C + ((j / c.W) % c.TW) % c.P_C := by
      rw [Nat.mul_comm]
      exact (Nat.div_add_mod _ _).symm
    calc j / c.W = ((j / c.W) / c.TW) * c.TW + (j / c.W) % c.TW := h1
      _ = ((j / c.W) / c.TW) * c.TW +
          ((((j / c.W) % c.TW) / c.P_C) * c.P_C + ((j / c.W) % c.TW) % c.P_C) :=
        congrArg (fun t => ((j / c.W) / c.TW) * c.TW + t) h2
      _ = _ := by ring
  have hj_dec : (j / c.W) * c.W + j % c.W = j := by
    rw [Nat.mul_comm]
    exact Nat.div_add_mod j c.W
  unfold pipeline_scalar pipeline_dev
  have key := write_C_run_addr c
    (fun pc p => C_pipe_hist c A B bufInit regInit pc p) (C_device0 c C0) hv
    hn0 htm hn1 hm hpe
  rw [← hi_dec, ← hvcol_dec] at key
  rw [key]
  simp only [write_C_pop]
  rw [C_pipe_hist_closed c A B bufInit regInit (by omega : c.P_R - 1 < c.P_R)]
  have hPRe : c.P_R - 1 + 1 = c.P_R := by omega
  rw [hPRe]
  simp only [C_pop_index]
  rw [getD_lex4 (fun i' j' k' m' =>
      bufDrain c A B bufInit regInit (c.P_R - 1 - k') (((j / c.W) % c.TW) % c.P_C)
        i' j' m') hn0 htm hn1 hm []]
  rw [bufDrain_closed c A B bufInit regInit hv (by omega) hpe hn0 htm hm]
  have hrow : c.P_R - 1 - (c.P_R - 1 - i % c.P_R) = i % c.P_R := by omega
  rw [hrow]
  unfold C_device0 vecOf vadd
  rw [List.zipWith_map, List.zipWith_same, getD_map_range _ hlane]
  rw [← hi_dec, ← hvcol_dec, hj_dec]
  rfl

/-- Over a commutative monoid the reset-at-zero fold is the `K`-term sum. -/
theorem kfold_eq_sum {R : Type} [AddCommMonoid R] (t : ℕ → R) {n : ℕ} (hn : 0 < n) :
    (List.range n).foldl (fun acc k => (if k = 0 then 0 else acc) + t k) 0 =
      ∑ k in Finset.range n, t k := by
  induction n with
  | zero => omega
  | succ n ih =>
    rcases Nat.eq_zero_or_pos n with h0 | hpos
    · subst h0
      rw [foldl_range_succ]
      simp
    · rw [foldl_range_succ, ih hpos, if_neg (by omega), Finset.sum_range_succ]

/-- Adding the zero vector on the left is the identity on length-`n` vectors. -/
theorem vadd_vzero_of_length {R : Type} [AddZeroClass R] {n : ℕ} (l : List R)
    (h : l.length = n) : vadd (vzero n) l = l := by
  subst h
  unfold vadd vzero
  induction l with
  | nil => rfl
  | cons x l ih =>
    rw [List.length_cons, List.replicate_succ, List.zipWith_cons_cons, zero_add, ih]

/-! # Claims -/

/-- **C1.** For every configuration satisfying the divisibility invariants and
every A, B, C₀ (and arbitrary initial transient contents), the pipeline's output
matrix equals `A·B + C₀` exactly (scalars idealized as exact rationals in place
of float32), hence the squared Frobenius norm of the deviation is 0 and the
harness's normalized error measure is below 1e-6. -/
theorem C1_pipeline_computes_gemm (c : GemmConfig) (A B C0 : ℕ → ℕ → ℚ)
    (bufInit : ℕ → ℕ → ℕ → List ℚ) (regInit : ℕ → ℕ → ℚ) (hv : c.valid) :
    (∀ i < c.N, ∀ j < c.M,
      pipeline_scalar c A B C0 bufInit regInit i j =
        (∑ k in Finset.range c.K, A i k * B k j) + C0 i j) ∧
    gemm_diff_normSq c A B C0 bufInit regInit = 0 ∧
    gemm_diff_normSq c A B C0 bufInit regInit / (c.M * c.K : ℚ) < 1 / 1000000 := by
  have hpt : ∀ i < c.N, ∀ j < c.M,
      pipeline_scalar c A B C0 bufInit regInit i j =
        (∑ k in Finset.range c.K, A i k * B k j) + C0 i j := by
    intro i hi j hj
    rw [pipeline_scalar_closed c A B C0 bufInit regInit hv hi hj]
    unfold gemm_ref_scalar
    rw [kfold_eq_sum _ hv.2.1]
  have h0 : gemm_diff_normSq c A B C0 bufInit regInit = 0 := by
    unfold gemm_diff_normSq
    refine Finset.sum_eq_zero ?_
    intro i hi
    refine Finset.sum_eq_zero ?_
    intro j hj
    rw [hpt i (Finset.mem_range.mp hi) j (Finset.mem_range.mp hj)]
    ring
  refine ⟨hpt, h0, ?_⟩
  rw [h0]
  norm_num

theorem C1_witness :
    wCfg.valid ∧ (1 : ℕ) < wCfg.N ∧ (1 : ℕ) < wCfg.M ∧
    pipeline_scalar wCfg wA wB wC wBufInit wRegInit 1 1 =
      (∑ k in Finset.range wCfg.K, wA 1 k * wB k 1) + wC 1 1 :=
  ⟨by decide, by decide, by decide,
    (C1_pipeline_computes_gemm wCfg wA wB wC wBufInit wRegInit (by decide)).1
      1 (by decide) 1 (by decide)⟩

/-- **C2.** Distributor A enumerates exactly `(n0, tm, k, n1)` in that order,
reading `A[n0·P_R+n1, k]` and enqueuing onto slot `P_R−1−n1` (the §4.1
contract), and the push stream of each row block is the same block stream
repeated once per column tile (the A row-block is re-streamed `M/T` times). -/
theorem C2_read_A_contract (c : GemmConfig) (A : ℕ → ℕ → α) :
    read_A c A = read_A_contract c A ∧
    read_A c A = (List.range c.nB).flatMap fun n0 =>
      (List.replicate c.nT (A_block_stream c A n0)).flatten := by
  constructor
  · unfold read_A read_A_contract GemmConfig.nB GemmConfig.nT
    refine flatMap_range_congr ?_
    intro n0 _
    refine flatMap_range_congr ?_
    intro _tm _
    refine flatMap_range_congr ?_
    intro k _
    refine map_range_congr ?_
    intro n1 _
    have h : c.P_R - n1 - 1 = c.P_R - 1 - n1 := by omega
    rw [h]
  · unfold read_A
    refine flatMap_range_congr ?_
    intro n0 _
    exact flatMap_range_const c.nT (A_block_stream c A n0)

/-- **C3.** Distributor B realizes the §4.2 contract (read
`B[k, tm·(T/W)+m·P_C+pe_j]`, enqueue onto column-channel slot `pe_j`), and for a
fixed tile the vector-column indices sent to distinct PE columns are pairwise
disjoint (`pe_j`-strided). -/
theorem C3_read_B_contract (c : GemmConfig) (B : ℕ → ℕ → α) :
    read_B c B = read_B_contract c B ∧
    (∀ tm : ℕ, ∀ m1 < c.MB, ∀ m2 < c.MB, ∀ pe1 < c.P_C, ∀ pe2 < c.P_C,
      pe1 ≠ pe2 →
      tm * c.TW + m1 * c.P_C + pe1 ≠ tm * c.TW + m2 * c.P_C + pe2) := by
  constructor
  · rfl
  · intro tm m1 hm1 m2 hm2 pe1 hpe1 pe2 hpe2 hne heq
    rw [add_assoc, add_assoc] at heq
    have h := Nat.add_left_cancel heq
    obtain ⟨-, hpe⟩ :=
      euclid_pair_inj (lt_of_le_of_lt (Nat.zero_le _) hpe1) hpe1 hpe2 h
    exact hne hpe

theorem C3_witness :
    (1 : ℕ) < c3Cfg.MB ∧ (1 : ℕ) < c3Cfg.P_C ∧ (0 : ℕ) ≠ 1 ∧
    0 * c3Cfg.TW + 0 * c3Cfg.P_C + 0 ≠ 0 * c3Cfg.TW + 1 * c3Cfg.P_C + 1 :=
  ⟨by decide, by decide, by decide,
    (C3_read_B_contract c3Cfg wB).2 0 0 (by decide) 1 (by decide) 0 (by decide)
      1 (by decide) (by decide)⟩

/-- **C4.** The multiply-accumulate tasklet: at `k = 0` the slot is set to
`register·B` (previous contents discarded); at `k ≠ 0` it becomes previous
value plus `register·B`; after the `k`-loop a finished buffer slot is exactly
the sum of the K products (one accumulation update per reduction step), with no
accumulation across pairs (independence of the transient initial contents); and
the B vector is forwarded (unmodified) exactly when `p_r < P_R − 1`. -/
theorem C4_multiply_add_spec (c : GemmConfig) (hv : c.valid) :
    (∀ (cprev b : List ℚ) (a : ℚ), b.length = c.W →
      multiply_add c.W 0 cprev a b = vscale a b) ∧
    (∀ k : ℕ, k ≠ 0 → ∀ (cprev b : List ℚ) (a : ℚ),
      multiply_add c.W k cprev a b = vadd cprev (vscale a b)) ∧
    (∀ (A B : ℕ → ℕ → ℚ) (bufInit : ℕ → ℕ → ℕ → List ℚ) (regInit : ℕ → ℕ → ℚ)
      (p pcc n0 tm m : ℕ), p < c.P_R → pcc < c.P_C → n0 < c.nB → tm < c.nT →
      m < c.MB →
      bufDrain c A B bufInit regInit p pcc n0 tm m =
        (List.range c.W).map fun l =>
          ∑ k in Finset.range c.K,
            A (n0 * c.P_R + (c.P_R - 1 - p)) k *
              B k ((tm * c.TW + m * c.P_C + pcc) * c.W + l)) ∧
    (∀ (A B : ℕ → ℕ → ℚ) (bufInit bufInit' : ℕ → ℕ → ℕ → List ℚ)
      (regInit regInit' : ℕ → ℕ → ℚ) (p pcc n0 tm m : ℕ),
      p < c.P_R → pcc < c.P_C → n0 < c.nB → tm < c.nT → m < c.MB →
      bufDrain c A B bufInit regInit p pcc n0 tm m =
        bufDrain c A B bufInit' regInit' p pcc n0 tm m) ∧
    (∀ (p_r : ℕ) (b : List ℚ),
      (p_r < c.P_R - 1 → b_forward c.P_R p_r b = some b) ∧
      (¬ p_r < c.P_R - 1 → b_forward c.P_R p_r b = none)) := by
  refine ⟨?_, ?_, ?_, ?_, ?_⟩
  · intro cprev b a hb
    unfold multiply_add
    rw [if_pos rfl]
    exact vadd_vzero_of_length (vscale a b)
      (by rw [vscale, List.length_map, hb])
  · intro k hk cprev b a
    unfold multiply_add
    rw [if_neg hk]
  · intro A B bufInit regInit p pcc n0 tm m hp hpc hn0 htm hm
    rw [bufDrain_closed c A B bufInit regInit hv hp hpc hn0 htm hm]
    refine map_range_congr ?_
    intro l _
    exact kfold_eq_sum _ hv.2.1
  · intro A B b1 b2 r1 r2 p pcc n0 tm m hp hpc hn0 htm hm
    rw [bufDrain_closed c A B b1 r1 hv hp hpc hn0 htm hm,
      bufDrain_closed c A B b2 r2 hv hp hpc hn0 htm hm]
  · intro p_r b
    constructor
    · intro h
      unfold b_forward
      rw [if_pos h]
    · intro h
      unfold b_forward
      rw [if_neg h]

theorem C4_witness :
    wCfg.valid ∧ ([3] : List ℚ).length = wCfg.W ∧ (1 : ℕ) ≠ 0 ∧
    multiply_add wCfg.W 0 [99] (2 : ℚ) [3] = vscale (2 : ℚ) [3] ∧
    multiply_add wCfg.W 1 [99] (2 : ℚ) [3] = vadd [99] (vscale (2 : ℚ) [3]) ∧
    bufDrain wCfg wA wB wBufInit wRegInit 0 0 0 0 0 =
      bufDrain wCfg wA wB wBufInit' wRegInit' 0 0 0 0 0 ∧
    b_forward wCfg.P_R 0 ([5] : List ℚ) = some [5] :=
  ⟨by decide, by decide, by decide,
    (C4_multiply_add_spec wCfg (by decide)).1 [99] [3] 2 (by decide),
    (C4_multiply_add_spec wCfg (by decide)).2.1 1 (by decide) [99] [3] 2,
    (C4_multiply_add_spec wCfg (by decide)).2.2.2.1 wA wB wBufInit wBufInit'
      wRegInit wRegInit' 0 0 0 0 0 (by decide) (by decide) (by decide)
      (by decide) (by decide),
    ((C4_multiply_add_spec wCfg (by decide)).2.2.2.2 0 [5]).1 (by decide)⟩

/-- **C5.** The Result Collector reads `C_pipe` only at coordinates
`(P_R−1, pe_j)` (its result depends on no other slot of the drain channel), and
at each iteration adds the popped vector to the pre-existing contents of
`C_device[n0·P_R+n1, tm·(T/W)+m·P_C+pe_j]`, writing the sum back to that same
address (accumulate-in-place, never plain overwrite). -/
theorem C5_write_C_spec [Add α] (c : GemmConfig) (hv : c.valid) :
    (∀ (h₁ h₂ : ℕ → ℕ → List (List α)) (Cdev : ℕ → ℕ → List α),
      (∀ pe_j, h₁ pe_j (c.P_R - 1) = h₂ pe_j (c.P_R - 1)) →
      write_C_run c h₁ Cdev = write_C_run c h₂ Cdev) ∧
    (∀ (hist : ℕ → ℕ → List (List α)) (Cdev : ℕ → ℕ → List α)
      (n0 tm n1 m pe_j : ℕ), n0 < c.nB → tm < c.nT → n1 < c.P_R → m < c.MB →
      pe_j < c.P_C →
      write_C_run c hist Cdev (n0 * c.P_R + n1) (tm * c.TW + m * c.P_C + pe_j) =
        vadd (write_C_pop c hist n0 tm n1 m pe_j)
          (Cdev (n0 * c.P_R + n1) (tm * c.TW + m * c.P_C + pe_j))) := by
  constructor
  · intro h₁ h₂ Cdev hagree
    unfold write_C_run
    refine foldl_congr_mem
      (fun (st : ℕ → ℕ → List α) (e : ℕ × ℕ × ℕ × ℕ × ℕ) =>
        write_C_step st (write_C_addr c e.1 e.2.1 e.2.2.1 e.2.2.2.1 e.2.2.2.2)
          (write_C_pop c h₂ e.1 e.2.1 e.2.2.1 e.2.2.2.1 e.2.2.2.2)) ?_
    intro acc e _
    unfold write_C_pop
    rw [hagree e.2.2.2.2]
  · intro hist Cdev n0 tm n1 m pe_j hn0 htm hn1 hm hpe
    exact write_C_run_addr c hist Cdev hv hn0 htm hn1 hm hpe

theorem C5_witness :
    wCfg.valid ∧ (0 : ℕ) < wCfg.nB ∧ (1 : ℕ) < wCfg.P_R ∧
    write_C_run wCfg h5 d5 (0 * wCfg.P_R + 1) (0 * wCfg.TW + 0 * wCfg.P_C + 0) =
      vadd (write_C_pop wCfg h5 0 0 1 0 0)
        (d5 (0 * wCfg.P_R + 1) (0 * wCfg.TW + 0 * wCfg.P_C + 0)) :=
  ⟨by decide, by decide, by decide,
    (C5_write_C_spec wCfg (by decide)).2 h5 d5 0 0 1 0 0 (by decide) (by decide)
      (by decide) (by decide) (by decide)⟩

/-- **C6 (counterexample).** At `P_R = 2` the sequence of vectors arriving at
the Collector from a column is *not* the column's finished buffers in ascending
PE-row order `0..P_R−1`: with A rows `1` and `2`, PE row 1's buffer (logical
row 0) arrives first. -/
theorem C6_counterexample :
    collector_arrivals zCfg zA zB zBufInit zRegInit 0 0 0 ≠
      ((List.range zCfg.P_R).flatMap fun p =>
        (List.range zCfg.MB).map fun m =>
          bufDrain zCfg zA zB zBufInit zRegInit p 0 0 0 m) := by
  decide

/-- **C6 (amended).** For each pair `(n0, tm)` and PE column `pe_j`, the vectors
arriving at the Collector are the column's finished buffers in *descending*
PE-row order `P_R−1, …, 0` (equivalently, ascending logical-row order, PE row
`p_r` holding logical row `P_R−1−p_r`); the release condition `n1 ≤ p_r` and the
forward condition `p_r > 0 ∧ n1 > 0` are as the drain tasklet states. -/
theorem C6_drain_order [Add α] [Mul α] [Zero α] (c : GemmConfig)
    (A B : ℕ → ℕ → α) (bufInit : ℕ → ℕ → ℕ → List α) (regInit : ℕ → ℕ → α)
    (hv : c.valid) {n0 tm pe_j : ℕ} (hn0 : n0 < c.nB) (htm : tm < c.nT)
    (_hpe : pe_j < c.P_C) :
    collector_arrivals c A B bufInit regInit n0 tm pe_j =
      (List.range c.P_R).flatMap fun d =>
      (List.range c.MB).map fun m =>
        bufDrain c A B bufInit regInit (c.P_R - 1 - d) pe_j n0 tm m := by
  have hPR : 0 < c.P_R := hv.2.2.2.1
  have hPRe : c.P_R - 1 + 1 = c.P_R := by omega
  unfold collector_arrivals
  refine flatMap_range_congr ?_
  intro n1 h1
  refine map_range_congr ?_
  intro m hm
  simp only [write_C_pop]
  rw [C_pipe_hist_closed c A B bufInit regInit (by omega : c.P_R - 1 < c.P_R),
    hPRe]
  simp only [C_pop_index]
  exact getD_lex4 (fun i' j' k' m' =>
    bufDrain c A B bufInit regInit (c.P_R - 1 - k') pe_j i' j' m') hn0 htm h1 hm []

theorem C6_witness :
    zCfg.valid ∧ (0 : ℕ) < zCfg.nB ∧ (0 : ℕ) < zCfg.nT ∧ (0 : ℕ) < zCfg.P_C ∧
    collector_arrivals zCfg zA zB zBufInit zRegInit 0 0 0 =
      ((List.range zCfg.P_R).flatMap fun d =>
        (List.range zCfg.MB).map fun m =>
          bufDrain zCfg zA zB zBufInit zRegInit (zCfg.P_R - 1 - d) 0 0 0 m) :=
  ⟨by decide, by decide, by decide, by decide,
    C6_drain_order zCfg zA zB zBufInit zRegInit (by decide) (by decide)
      (by decide) (by decide)⟩

/-- **C7 (counterexample).** With the valid configuration `T=4, W=1, P_C=2`,
the allocated `C_buffer` has `T/W = 4` vector slots while the PE iterates only
`T/(W·P_C) = 2` sub-tile offsets — the claimed equality fails for `P_C > 1`. -/
theorem C7_counterexample : c3Cfg.valid ∧ C_buffer_len c3Cfg ≠ c3Cfg.MB := by
  decide

/-- **C7 (amended).** Each PE's `C_buffer` is allocated `T/W` vector slots,
which is `P_C` times the number `T/(W·P_C)` of sub-tile offsets it iterates
over; the two agree exactly when `P_C = 1`. -/
theorem C7_buffer_slots (c : GemmConfig) (hv : c.valid) :
    C_buffer_len c = c.MB * c.P_C ∧ (c.P_C = 1 → C_buffer_len c = c.MB) := by
  have h : C_buffer_len c = c.MB * c.P_C := valid_TW_eq c hv
  exact ⟨h, fun h1 => by rw [h, h1, Nat.mul_one]⟩

theorem C7_witness :
    wCfg.valid ∧ wCfg.P_C = 1 ∧ C_buffer_len wCfg = wCfg.MB :=
  ⟨by decide, by decide, (C7_buffer_slots wCfg (by decide)).2 (by decide)⟩

/-- **C8 (counterexample).** A configuration violating the divisibility
invariants (N = 3 with P_R = 2) is nevertheless accepted by the setup phase:
`__main__` performs no validation between argument parsing and running. -/
theorem C8_counterexample : ¬ badCfg.valid ∧ main_setup badCfg = Except.ok badCfg :=
  ⟨by decide, rfl⟩

/-- **C8 (amended).** The implementation does *not* validate the divisibility
preconditions at setup: every argument tuple is accepted and the computation
proceeds (the spec's §7 documents the invariants as unchecked; validation is
only a recommendation to implementers). -/
theorem C8_no_validation (a : GemmConfig) : main_setup a = Except.ok a := rfl

/-- **C9.** Holding N, K, M (and the matrices and thus the per-element
operation order) fixed, the output is independent of the array geometry
P_R × P_C, of W, and of T: any two valid configurations with the same N, K, M
produce identical outputs — over an arbitrary `Add`/`Mul`/`Zero` scalar type,
so identity holds operation-for-operation, not merely up to algebra. -/
theorem C9_geometry_independent [Add α] [Mul α] [Zero α] (c₁ c₂ : GemmConfig)
    (A B C0 : ℕ → ℕ → α) (b₁ b₂ : ℕ → ℕ → ℕ → List α) (r₁ r₂ : ℕ → ℕ → α)
    (hv₁ : c₁.valid) (hv₂ : c₂.valid) (hN : c₁.N = c₂.N) (hK : c₁.K = c₂.K)
    (hM : c₁.M = c₂.M) :
    ∀ i < c₁.N, ∀ j < c₁.M,
      pipeline_scalar c₁ A B C0 b₁ r₁ i j = pipeline_scalar c₂ A B C0 b₂ r₂ i j := by
  intro i hi j hj
  rw [pipeline_scalar_closed c₁ A B C0 b₁ r₁ hv₁ hi hj,
    pipeline_scalar_closed c₂ A B C0 b₂ r₂ hv₂ (hN ▸ hi) (hM ▸ hj), hK]

theorem C9_witness :
    wCfg9a.valid ∧ wCfg9b.valid ∧ wCfg9a.N = wCfg9b.N ∧ wCfg9a.K = wCfg9b.K ∧
    wCfg9a.M = wCfg9b.M ∧
    pipeline_scalar wCfg9a wA wB wC wBufInit wRegInit 0 1 =
      pipeline_scalar wCfg9b wA wB wC wBufInit' wRegInit' 0 1 :=
  ⟨by decide, by decide, rfl, rfl, rfl,
    C9_geometry_independent wCfg9a wCfg9b wA wB wC wBufInit wBufInit' wRegInit
      wRegInit' (by decide) (by decide) rfl rfl rfl 0 (by decide) 1 (by decide)⟩

/-- **C10.** The output matrix is independent of the initial contents of every
PE's transient `C_buffer` and `A_reg`: two runs with identical inputs and
parameters but arbitrary different initial transient values agree on every
in-range output element (the `k = 0` branch of `multiply_add` discards the
buffer's previous value, and `buffer_a` overwrites the register before each
read). -/
theorem C10_transient_init_independent [Add α] [Mul α] [Zero α] (c : GemmConfig)
    (A B C0 : ℕ → ℕ → α) (b₁ b₂ : ℕ → ℕ → ℕ → List α) (r₁ r₂ : ℕ → ℕ → α)
    (hv : c.valid) :
    ∀ i < c.N, ∀ j < c.M,
      pipeline_scalar c A B C0 b₁ r₁ i j = pipeline_scalar c A B C0 b₂ r₂ i j := by
  intro i hi j hj
  rw [pipeline_scalar_closed c A B C0 b₁ r₁ hv hi hj,
    pipeline_scalar_closed c A B C0 b₂ r₂ hv hi hj]

theorem C10_witness :
    wCfg.valid ∧
    pipeline_scalar wCfg wA wB wC wBufInit wRegInit 1 0 =
      pipeline_scalar wCfg wA wB wC wBufInit' wRegInit' 1 0 :=
  ⟨by decide,
    C10_transient_init_independent wCfg wA wB wC wBufInit wBufInit' wRegInit
      wRegInit' (by decide) 1 (by decide) 0 (by decide)⟩

end SystolicGemm
